import Mathlib

/-!
Verification development for the visual-region extraction and geometric
clustering engine of `decomposed_pdf.py` (with the data-URI decoder of
`debug.py`).

Shallow embedding conventions:
* `fitz.Rect` is embedded as a structure of four rationals; Python float
  arithmetic on rectangle coordinates is modelled exactly over `ℚ`.
* `fitz.Rect.is_empty` is `x0 >= x1 or y0 >= y1`, `get_area` is
  `(x1-x0)*(y1-y0)`, `&` is componentwise max/min intersection, `|` is the
  bounding-box union (componentwise min/max).
* Python lists become `List`, `list.pop()` (from the back) is modelled by
  processing the reversed list front to back.
* External collaborators (the PyMuPDF document backend and the PIL codec)
  enter as explicit input data / function parameters, matching the spec's
  "document backend" and "image codec" interfaces.
-/

/-- Embedding of `fitz.Rect`: four coordinates, here exact rationals. -/
structure Rect where
  x0 : ℚ
  y0 : ℚ
  x1 : ℚ
  y1 : ℚ
deriving DecidableEq, Repr

namespace Rect

/-- Embedding of `fitz.Rect.is_empty`: true iff `x0 >= x1 or y0 >= y1`. -/
def is_empty (r : Rect) : Bool := r.x1 ≤ r.x0 || r.y1 ≤ r.y0

/-- Embedding of `fitz.Rect.get_area()`: `(x1 - x0) * (y1 - y0)`. -/
def get_area (r : Rect) : ℚ := (r.x1 - r.x0) * (r.y1 - r.y0)

/-- Embedding of `a & b` on `fitz.Rect`: componentwise intersection rectangle. -/
def inter (a b : Rect) : Rect :=
  ⟨max a.x0 b.x0, max a.y0 b.y0, min a.x1 b.x1, min a.y1 b.y1⟩

/-- Embedding of `a | b` on `fitz.Rect`: smallest rectangle containing both. -/
def union (a b : Rect) : Rect :=
  ⟨min a.x0 b.x0, min a.y0 b.y0, max a.x1 b.x1, max a.y1 b.y1⟩

/-- Rectangle containment (`r` lies inside `o`), used to state the
    containment clauses of the spec. -/
def contains (o r : Rect) : Bool :=
  o.x0 ≤ r.x0 && o.y0 ≤ r.y0 && r.x1 ≤ o.x1 && r.y1 ≤ o.y1

end Rect

/-- Embedding of `DecomposedPDF._expand_rect(r, pad)`. -/
def _expand_rect (r : Rect) (pad : ℚ) : Rect :=
  ⟨r.x0 - pad, r.y0 - pad, r.x1 + pad, r.y1 + pad⟩

/-- Embedding of `DecomposedPDF._iou(a, b)`: 0 when the intersection is empty, else
    `inter_area / union_area` with the denominator guarded (`> 0`). -/
def _iou (a b : Rect) : ℚ :=
  let i := Rect.inter a b
  if i.is_empty then 0
  else
    let union_area := a.get_area + b.get_area - i.get_area
    if 0 < union_area then i.get_area / union_area else 0

/-- The merge predicate of `_merge_rects`:
    `self._iou(out[i], r) >= iou_threshold or not (out[i] & r).is_empty`. -/
def adjacent (τ : ℚ) (a b : Rect) : Bool :=
  (τ ≤ _iou a b) || !(Rect.inter a b).is_empty

/-- One iteration of the inner `for i in range(len(out))` loop of
    `_merge_rects`: replace the first accumulator entry matching the merge
    predicate by its union with `r` (returning `true`), else append `r`
    (returning `false`). -/
def passInsert (τ : ℚ) (out : List Rect) (r : Rect) : List Rect × Bool :=
  match out with
  | [] => ([r], false)
  | o :: rest =>
    if adjacent τ o r then (Rect.union o r :: rest, true)
    else (o :: (passInsert τ rest r).1, (passInsert τ rest r).2)

/-- The inner `while rects:` loop of one pass of `_merge_rects`, after the
    pop-from-the-back order has been made explicit (the first element of
    `rs` is the next rectangle popped).  Threads the accumulator `out` and
    the `changed` flag. -/
def runPass (τ : ℚ) (rs out : List Rect) (changed : Bool) : List Rect × Bool :=
  match rs with
  | [] => (out, changed)
  | r :: rest =>
    let p := passInsert τ out r
    runPass τ rest p.1 (changed || p.2)

/-- One full pass of `_merge_rects` over the working list `rects`
    (popping from the back, i.e. processing `rects.reverse`). -/
def mergePass (τ : ℚ) (rects : List Rect) : List Rect × Bool :=
  runPass τ rects.reverse [] false

/-- The inner-loop insertion keeps the accumulator length when it merges
    and grows it by one when it appends. -/
theorem passInsert_length (τ : ℚ) (r : Rect) :
    ∀ out, (passInsert τ out r).1.length =
      if (passInsert τ out r).2 then out.length else out.length + 1 := by
  intro out
  induction out with
  | nil => simp [passInsert]
  | cons o os ih =>
    by_cases h : adjacent τ o r
    · simp [passInsert, h]
    · simp only [passInsert, h, if_false, List.length_cons]
      rcases hb : (passInsert τ os r).2 with _ | _ <;> rw [hb] at ih <;> simp [ih]

/-- A merging pass strictly shrinks the list: counting the result length
    plus one for a raised `changed` flag never exceeds the input budget. -/
theorem runPass_length (τ : ℚ) (rs : List Rect) :
    ∀ out c out2 m, runPass τ rs out c = (out2, m) →
      out2.length + (if m then 1 else 0) ≤
        out.length + rs.length + (if c then 1 else 0) := by
  induction rs with
  | nil =>
    intro out c out2 m h
    simp only [runPass, Prod.mk.injEq] at h
    obtain ⟨rfl, rfl⟩ := h
    simp
  | cons r rest ih =>
    intro out c out2 m h
    simp only [runPass] at h
    have hlen := passInsert_length τ r out
    rcases hq : passInsert τ out r with ⟨o2, mb⟩
    rw [hq] at h hlen
    have hrec := ih o2 (c || mb) out2 m h
    simp only at hlen
    rcases mb <;> rcases c <;> simp_all <;> omega

/-- If a pass reports a merge, its output is strictly shorter than its
    input. -/
theorem mergePass_length_lt (τ : ℚ) (rects : List Rect)
    (h : (mergePass τ rects).2 = true) :
    (mergePass τ rects).1.length < rects.length := by
  have h0 := runPass_length τ rects.reverse [] false
      (mergePass τ rects).1 (mergePass τ rects).2 (by simp [mergePass])
  rw [h] at h0
  simpa using h0

/-- The outer `while changed:` loop of `_merge_rects`: repeat passes until
    a pass performs no merge.  Implemented with explicit fuel so that it is
    a structural recursion the kernel can evaluate; `mergeLoop_stable` below
    shows any fuel beyond the input length gives the same (stable) answer,
    so the fuelled function is the total while-loop. -/
def mergeLoop (τ : ℚ) : Nat → List Rect → List Rect
  | 0, rects => rects
  | fuel + 1, rects =>
    if (mergePass τ rects).2 then mergeLoop τ fuel (mergePass τ rects).1
    else (mergePass τ rects).1

/-- Embedding of `DecomposedPDF._merge_rects(rects, iou_threshold=0.15)`. -/
def _merge_rects (rects : List Rect) (iou_threshold : ℚ := 15/100) : List Rect :=
  mergeLoop iou_threshold (rects.length + 1) rects

/-- With fuel exceeding the current length, the loop reaches a pass with no
    merge, and extra fuel does not change the result. -/
theorem mergeLoop_stable (τ : ℚ) :
    ∀ fuel₁ fuel₂ rects, rects.length < fuel₁ → rects.length < fuel₂ →
      mergeLoop τ fuel₁ rects = mergeLoop τ fuel₂ rects := by
  intro fuel₁
  induction fuel₁ with
  | zero => intro fuel₂ rects h1; omega
  | succ n ih =>
    intro fuel₂ rects h1 h2
    match fuel₂, h2 with
    | m + 1, h2 =>
      simp only [mergeLoop]
      rcases hp : (mergePass τ rects).2 with _ | _
      · simp [hp]
      · simp only [hp, if_true]
        have hlt := mergePass_length_lt τ rects hp
        exact ih m (mergePass τ rects).1 (by omega) (by omega)

/-! ### Geometry lemmas -/

theorem Rect.inter_comm (a b : Rect) : Rect.inter a b = Rect.inter b a := by
  simp [Rect.inter, max_comm, min_comm]

theorem Rect.union_comm (a b : Rect) : Rect.union a b = Rect.union b a := by
  simp [Rect.union, max_comm, min_comm]

theorem Rect.union_assoc (a b c : Rect) :
    Rect.union (Rect.union a b) c = Rect.union a (Rect.union b c) := by
  simp [Rect.union, max_assoc, min_assoc]

theorem Rect.is_empty_iff (r : Rect) :
    r.is_empty = true ↔ (r.x1 ≤ r.x0 ∨ r.y1 ≤ r.y0) := by
  simp [Rect.is_empty]

theorem Rect.not_is_empty_iff (r : Rect) :
    r.is_empty = false ↔ (r.x0 < r.x1 ∧ r.y0 < r.y1) := by
  rw [← Bool.not_eq_true, Rect.is_empty_iff]
  push_neg
  rfl

theorem Rect.contains_iff (o r : Rect) :
    o.contains r = true ↔ (o.x0 ≤ r.x0 ∧ o.y0 ≤ r.y0 ∧ r.x1 ≤ o.x1 ∧ r.y1 ≤ o.y1) := by
  simp [Rect.contains, and_assoc]

theorem Rect.union_contains_left (a b : Rect) : (Rect.union a b).contains a = true := by
  simp [Rect.contains_iff, Rect.union, min_le_left, le_max_left]

theorem Rect.union_contains_right (a b : Rect) : (Rect.union a b).contains b = true := by
  simp [Rect.contains_iff, Rect.union, min_le_right, le_max_right]

theorem Rect.contains_trans {o r s : Rect} (h1 : o.contains r = true)
    (h2 : r.contains s = true) : o.contains s = true := by
  rw [Rect.contains_iff] at h1 h2 ⊢
  obtain ⟨a1, a2, a3, a4⟩ := h1
  obtain ⟨b1, b2, b3, b4⟩ := h2
  exact ⟨le_trans a1 b1, le_trans a2 b2, le_trans b3 a3, le_trans b4 a4⟩

/-- Overlap (nonempty intersection) is preserved when one side grows. -/
theorem Rect.overlap_mono {r b b2 : Rect} (h : (Rect.inter r b).is_empty = false)
    (hc : b2.contains b = true) : (Rect.inter r b2).is_empty = false := by
  rw [Rect.not_is_empty_iff] at h ⊢
  rw [Rect.contains_iff] at hc
  obtain ⟨h1, h2⟩ := h
  obtain ⟨c1, c2, c3, c4⟩ := hc
  simp only [Rect.inter] at h1 h2 ⊢
  constructor
  · calc max r.x0 b2.x0 ≤ max r.x0 b.x0 := max_le_max le_rfl c1
    _ < min r.x1 b.x1 := h1
    _ ≤ min r.x1 b2.x1 := min_le_min le_rfl c3
  · calc max r.y0 b2.y0 ≤ max r.y0 b.y0 := max_le_max le_rfl c2
    _ < min r.y1 b.y1 := h2
    _ ≤ min r.y1 b2.y1 := min_le_min le_rfl c4

/-- If two rectangles overlap, each of them is nonempty and its area is at
    least the intersection area. -/
theorem Rect.area_le_of_overlap {a b : Rect} (h : (Rect.inter a b).is_empty = false) :
    0 < (Rect.inter a b).get_area ∧ (Rect.inter a b).get_area ≤ a.get_area ∧
      (Rect.inter a b).get_area ≤ b.get_area := by
  rw [Rect.not_is_empty_iff] at h
  obtain ⟨h1, h2⟩ := h
  simp only [Rect.inter] at h1 h2
  have hx : max a.x0 b.x0 < min a.x1 b.x1 := h1
  have hy : max a.y0 b.y0 < min a.y1 b.y1 := h2
  have iw : (0:ℚ) < min a.x1 b.x1 - max a.x0 b.x0 := by linarith
  have ih : (0:ℚ) < min a.y1 b.y1 - max a.y0 b.y0 := by linarith
  refine ⟨mul_pos iw ih, ?_, ?_⟩ <;> simp only [Rect.get_area, Rect.inter] <;>
    apply mul_le_mul
  · have := le_max_left a.x0 b.x0; have := min_le_left a.x1 b.x1; linarith
  · have := le_max_left a.y0 b.y0; have := min_le_left a.y1 b.y1; linarith
  · linarith
  · have := le_max_left a.x0 b.x0; have := min_le_left a.x1 b.x1; linarith
  · have := le_max_right a.x0 b.x0; have := min_le_right a.x1 b.x1; linarith
  · have := le_max_right a.y0 b.y0; have := min_le_right a.y1 b.y1; linarith
  · linarith
  · have := le_max_right a.x0 b.x0; have := min_le_right a.x1 b.x1; linarith

theorem _iou_nonneg (a b : Rect) : 0 ≤ _iou a b := by
  unfold _iou
  rcases h : (Rect.inter a b).is_empty with _ | _
  · simp only [h, Bool.false_eq_true, if_false]
    have hpos := (Rect.area_le_of_overlap h).1
    split
    · rename_i hu
      exact div_nonneg hpos.le hu.le
    · exact le_refl 0
  · simp [h]

theorem _iou_comm (a b : Rect) : _iou a b = _iou b a := by
  unfold _iou
  rw [Rect.inter_comm]
  rw [add_comm a.get_area b.get_area]

/-- If the intersection of `a` and `b` is empty, `_iou a b = 0`. -/
theorem _iou_of_empty {a b : Rect} (h : (Rect.inter a b).is_empty = true) :
    _iou a b = 0 := by
  simp [_iou, h]

theorem adjacent_comm (τ : ℚ) (a b : Rect) : adjacent τ a b = adjacent τ b a := by
  unfold adjacent
  rw [_iou_comm, Rect.inter_comm]

/-- Adjacency to `b` is preserved when `b` grows: needed for confluence of
    the merge relation. -/
theorem adjacent_mono {τ : ℚ} {r b b2 : Rect} (h : adjacent τ r b = true)
    (hc : b2.contains b = true) : adjacent τ r b2 = true := by
  unfold adjacent at h ⊢
  rcases he : (Rect.inter r b).is_empty with _ | _
  · have := Rect.overlap_mono he hc
    simp [this]
  · rw [he] at h
    simp only [Bool.not_true, Bool.or_false, decide_eq_true_eq] at h
    have h0 : _iou r b = 0 := _iou_of_empty he
    rw [h0] at h
    have : τ ≤ _iou r b2 := le_trans h (_iou_nonneg r b2)
    simp [this]

/-! ### C9: the IoU helper against the spec's description -/

/-- The spec's description of `intersectionOverUnion` (§4.1), written out
    from its words: 0.0 if the intersection has zero or negative width or
    height; otherwise `inter_area / (area(a)+area(b)-inter_area)` with the
    denominator guarded (0.0 when it is ≤ 0). -/
def iouSpec (a b : Rect) : ℚ :=
  if 0 < min a.x1 b.x1 - max a.x0 b.x0 ∧ 0 < min a.y1 b.y1 - max a.y0 b.y0 then
    if (a.x1 - a.x0) * (a.y1 - a.y0) + (b.x1 - b.x0) * (b.y1 - b.y0) -
        (min a.x1 b.x1 - max a.x0 b.x0) * (min a.y1 b.y1 - max a.y0 b.y0) ≤ 0 then 0
    else ((min a.x1 b.x1 - max a.x0 b.x0) * (min a.y1 b.y1 - max a.y0 b.y0)) /
      ((a.x1 - a.x0) * (a.y1 - a.y0) + (b.x1 - b.x0) * (b.y1 - b.y0) -
        (min a.x1 b.x1 - max a.x0 b.x0) * (min a.y1 b.y1 - max a.y0 b.y0))
  else 0

/-- C9: for every pair of rectangles, `_iou` returns 0.0 when their
    intersection is empty (zero or negative width/height) or when
    `area(a)+area(b)-intersection_area ≤ 0`, and otherwise returns
    `intersection_area / (area(a)+area(b)-intersection_area)`. -/
theorem C9_iou_functional_correctness (a b : Rect) : _iou a b = iouSpec a b := by
  have hI : (Rect.inter a b).get_area =
      (min a.x1 b.x1 - max a.x0 b.x0) * (min a.y1 b.y1 - max a.y0 b.y0) := rfl
  have hA : a.get_area = (a.x1 - a.x0) * (a.y1 - a.y0) := rfl
  have hB : b.get_area = (b.x1 - b.x0) * (b.y1 - b.y0) := rfl
  unfold _iou iouSpec
  rcases h : (Rect.inter a b).is_empty with _ | _
  · have hne := (Rect.not_is_empty_iff (Rect.inter a b)).mp h
    simp only [Rect.inter] at hne
    have hcond : 0 < min a.x1 b.x1 - max a.x0 b.x0 ∧ 0 < min a.y1 b.y1 - max a.y0 b.y0 :=
      ⟨by linarith [hne.1], by linarith [hne.2]⟩
    simp only [h, Bool.false_eq_true, if_false, if_pos hcond, hI, hA, hB]
    rcases le_or_lt ((a.x1 - a.x0) * (a.y1 - a.y0) + (b.x1 - b.x0) * (b.y1 - b.y0) -
        (min a.x1 b.x1 - max a.x0 b.x0) * (min a.y1 b.y1 - max a.y0 b.y0)) 0 with hle | hlt
    · rw [if_neg (not_lt.mpr hle), if_pos hle]
    · rw [if_pos hlt, if_neg (not_le.mpr hlt)]
  · have hemp := (Rect.is_empty_iff (Rect.inter a b)).mp h
    simp only [Rect.inter] at hemp
    have hcond : ¬(0 < min a.x1 b.x1 - max a.x0 b.x0 ∧ 0 < min a.y1 b.y1 - max a.y0 b.y0) := by
      rcases hemp with hh | hh
      · intro hx; linarith [hx.1]
      · intro hx; linarith [hx.2]
    simp only [h, if_true, if_neg hcond]

/-! ### Structure of a single merge pass -/

/-- When the insertion merges, the accumulator is split at the first
    adjacent entry, which is replaced by its union with `r`. -/
theorem passInsert_eq_true (τ : ℚ) (r : Rect) :
    ∀ out out2, passInsert τ out r = (out2, true) →
      ∃ pre o post, out = pre ++ o :: post ∧ adjacent τ o r = true ∧
        out2 = pre ++ Rect.union o r :: post := by
  intro out
  induction out with
  | nil => intro out2 h; simp [passInsert] at h
  | cons o os ih =>
    intro out2 h
    rw [passInsert] at h
    by_cases ha : adjacent τ o r
    · rw [if_pos ha] at h
      have h1 := congrArg Prod.fst h
      simp only at h1
      exact ⟨[], o, os, rfl, ha, by rw [← h1]; rfl⟩
    · rw [if_neg ha] at h
      have h1 := congrArg Prod.fst h
      have h2 := congrArg Prod.snd h
      simp only at h1 h2
      obtain ⟨pre, o', post, hs, hadj, hout⟩ := ih (passInsert τ os r).1 (by rw [← h2])
      refine ⟨o :: pre, o', post, by simp [hs], hadj, ?_⟩
      rw [← h1, hout]
      rfl

/-- When the insertion does not merge, the popped rectangle is appended and
    it is non-adjacent to every accumulator entry. -/
theorem passInsert_eq_false (τ : ℚ) (r : Rect) :
    ∀ out out2, passInsert τ out r = (out2, false) →
      out2 = out ++ [r] ∧ ∀ o ∈ out, adjacent τ o r = false := by
  intro out
  induction out with
  | nil =>
    intro out2 h
    rw [passInsert] at h
    have h1 := congrArg Prod.fst h
    simp only at h1
    exact ⟨by rw [← h1]; rfl, by simp⟩
  | cons o os ih =>
    intro out2 h
    rw [passInsert] at h
    by_cases ha : adjacent τ o r
    · rw [if_pos ha] at h
      have h2 := congrArg Prod.snd h
      simp at h2
    · rw [if_neg ha] at h
      have h1 := congrArg Prod.fst h
      have h2 := congrArg Prod.snd h
      simp only at h1 h2
      obtain ⟨h3, h4⟩ := ih (passInsert τ os r).1 (by rw [← h2])
      constructor
      · rw [← h1, h3]
        rfl
      · intro x hx
        rcases List.mem_cons.mp hx with rfl | hx2
        · simpa using ha
        · exact h4 x hx2

/-- If no adjacent accumulator entry exists, the insertion appends. -/
theorem passInsert_of_not_adjacent (τ : ℚ) (r : Rect) :
    ∀ out, (∀ o ∈ out, adjacent τ o r = false) → passInsert τ out r = (out ++ [r], false) := by
  intro out
  induction out with
  | nil => intro _; simp [passInsert]
  | cons o os ih =>
    intro h
    have ho := h o (by simp)
    simp only [passInsert, ho, Bool.false_eq_true, if_false]
    rw [ih (fun x hx => h x (by simp [hx]))]
    rfl

/-- A raised `changed` flag stays raised for the rest of the pass. -/
theorem runPass_changed (τ : ℚ) : ∀ rs out, (runPass τ rs out true).2 = true := by
  intro rs
  induction rs with
  | nil => intro out; simp [runPass]
  | cons r rest ih =>
    intro out
    simp only [runPass, Bool.true_or]
    exact ih (passInsert τ out r).1

/-- A pass that reports no merge appended every popped rectangle, and its
    output is pairwise non-adjacent as soon as its accumulator was. -/
theorem runPass_false_pairwise (τ : ℚ) :
    ∀ rs out out2, runPass τ rs out false = (out2, false) →
      List.Pairwise (fun a b => adjacent τ a b = false) out →
      out2 = out ++ rs ∧ List.Pairwise (fun a b => adjacent τ a b = false) out2 := by
  intro rs
  induction rs with
  | nil =>
    intro out out2 h hp
    simp only [runPass, Prod.mk.injEq] at h
    obtain ⟨rfl, -⟩ := h
    exact ⟨by simp, hp⟩
  | cons r rest ih =>
    intro out out2 h hp
    simp only [runPass] at h
    rcases hm : (passInsert τ out r).2 with _ | _
    · rcases hq : passInsert τ out r with ⟨o2, mb⟩
      rw [hq] at h
      rw [hq] at hm
      simp only at hm
      subst hm
      simp only [Bool.or_false] at h
      obtain ⟨h3, h4⟩ := passInsert_eq_false τ r out o2 hq
      subst h3
      have hp2 : List.Pairwise (fun a b => adjacent τ a b = false) (out ++ [r]) := by
        rw [List.pairwise_append]
        exact ⟨hp, List.pairwise_singleton _ r, fun a ha b hb => by
          rw [List.mem_singleton] at hb
          subst hb
          exact h4 a ha⟩
      obtain ⟨h5, h6⟩ := ih (out ++ [r]) out2 h hp2
      exact ⟨by simp [h5], h6⟩
    · rcases hq : passInsert τ out r with ⟨o2, mb⟩
      rw [hq] at h hm
      simp only at hm
      subst hm
      simp only [Bool.or_true] at h
      have := runPass_changed τ rest o2
      rw [h] at this
      simp at this

/-- On a pairwise non-adjacent working list, a pass merges nothing and just
    reverses the list. -/
theorem mergePass_of_pairwise (τ : ℚ) (l : List Rect)
    (hp : List.Pairwise (fun a b => adjacent τ a b = false) l) :
    mergePass τ l = (l.reverse, false) := by
  have key : ∀ rs out, List.Pairwise (fun a b => adjacent τ a b = false) (out ++ rs) →
      runPass τ rs out false = (out ++ rs, false) := by
    intro rs
    induction rs with
    | nil => intro out h; simp [runPass]
    | cons r rest ih =>
      intro out h
      have hsplit : ∀ o ∈ out, adjacent τ o r = false := by
        intro o ho
        rw [List.pairwise_append] at h
        exact h.2.2 o ho r (by simp)
      simp only [runPass]
      rw [passInsert_of_not_adjacent τ r out hsplit]
      simp only [Bool.or_false]
      have := ih (out ++ [r]) (by simpa using h)
      rw [this]
      simp
  have hrev : List.Pairwise (fun a b => adjacent τ a b = false) l.reverse := by
    rw [List.pairwise_reverse]
    exact hp.imp (fun {a b} hab => by rw [adjacent_comm]; exact hab)
  have := key l.reverse [] (by simpa using hrev)
  simpa [mergePass] using this

/-! ### Coverage: every input stays inside some output -/

theorem Rect.contains_refl (r : Rect) : r.contains r = true := by
  simp [Rect.contains_iff]

/-- Anything covered by an accumulator entry stays covered after an
    insertion. -/
theorem passInsert_covers (τ : ℚ) (r : Rect) (out : List Rect) (x : Rect)
    (h : ∃ o ∈ out, o.contains x = true) :
    ∃ o2 ∈ (passInsert τ out r).1, o2.contains x = true := by
  obtain ⟨o, ho, hc⟩ := h
  rcases hm : (passInsert τ out r).2 with _ | _
  · obtain ⟨h1, -⟩ := passInsert_eq_false τ r out (passInsert τ out r).1 (by rw [← hm])
    exact ⟨o, by rw [h1]; exact List.mem_append_left _ ho, hc⟩
  · obtain ⟨pre, o', post, hs, -, hout⟩ :=
      passInsert_eq_true τ r out (passInsert τ out r).1 (by rw [← hm])
    rw [hs] at ho
    rcases List.mem_append.mp ho with hpre | hrest
    · exact ⟨o, by rw [hout]; exact List.mem_append_left _ hpre, hc⟩
    · rcases List.mem_cons.mp hrest with rfl | hpost
      · refine ⟨Rect.union o r, ?_, Rect.contains_trans (Rect.union_contains_left o r) hc⟩
        rw [hout]
        exact List.mem_append_right _ (by simp)
      · exact ⟨o, by rw [hout]; exact List.mem_append_right _ (by simp [hpost]), hc⟩

/-- The inserted rectangle itself ends up covered. -/
theorem passInsert_covers_self (τ : ℚ) (r : Rect) (out : List Rect) :
    ∃ o2 ∈ (passInsert τ out r).1, o2.contains r = true := by
  rcases hm : (passInsert τ out r).2 with _ | _
  · obtain ⟨h1, -⟩ := passInsert_eq_false τ r out (passInsert τ out r).1 (by rw [← hm])
    exact ⟨r, by rw [h1]; exact List.mem_append_right _ (by simp), Rect.contains_refl r⟩
  · obtain ⟨pre, o', post, hs, -, hout⟩ :=
      passInsert_eq_true τ r out (passInsert τ out r).1 (by rw [← hm])
    refine ⟨Rect.union o' r, ?_, Rect.union_contains_right o' r⟩
    rw [hout]
    exact List.mem_append_right _ (by simp)

/-- During a pass, anything covered by the accumulator or still waiting in
    the working list ends up covered by the pass output. -/
theorem runPass_covers (τ : ℚ) :
    ∀ rs out c x, ((∃ o ∈ out, o.contains x = true) ∨ x ∈ rs) →
      ∃ o2 ∈ (runPass τ rs out c).1, o2.contains x = true := by
  intro rs
  induction rs with
  | nil =>
    intro out c x h
    rcases h with h | h
    · simpa [runPass] using h
    · simp at h
  | cons r rest ih =>
    intro out c x h
    simp only [runPass]
    rcases h with h | h
    · exact ih _ _ x (Or.inl (passInsert_covers τ r out x h))
    · rcases List.mem_cons.mp h with rfl | hrest
      · exact ih _ _ x (Or.inl (passInsert_covers_self τ x out))
      · exact ih _ _ x (Or.inr hrest)

/-- Anything covered by the working list is covered by the merge result. -/
theorem mergeLoop_covers (τ : ℚ) :
    ∀ fuel rects x, (∃ o ∈ rects, o.contains x = true) →
      ∃ o2 ∈ mergeLoop τ fuel rects, o2.contains x = true := by
  intro fuel
  induction fuel with
  | zero => intro rects x h; simpa [mergeLoop] using h
  | succ n ih =>
    intro rects x h
    obtain ⟨o, ho, hc⟩ := h
    have hpass : ∃ o2 ∈ (mergePass τ rects).1, o2.contains x = true := by
      have hmem : ∃ o2 ∈ (mergePass τ rects).1, o2.contains o = true :=
        runPass_covers τ rects.reverse [] false o (Or.inr (by simpa using ho))
      obtain ⟨o2, ho2, hco2⟩ := hmem
      exact ⟨o2, ho2, Rect.contains_trans hco2 hc⟩
    simp only [mergeLoop]
    rcases hch : (mergePass τ rects).2 with _ | _
    · simpa [hch] using hpass
    · simp only [hch, if_true]
      obtain ⟨o2, ho2, hco2⟩ := hpass
      exact ih (mergePass τ rects).1 x ⟨o2, ho2, hco2⟩

/-- With enough fuel, the loop ends on the output of a pass that merged
    nothing. -/
theorem merge_reaches_fixpoint (τ : ℚ) :
    ∀ fuel rects, rects.length < fuel →
      ∃ l, mergeLoop τ fuel rects = (mergePass τ l).1 ∧ (mergePass τ l).2 = false := by
  intro fuel
  induction fuel with
  | zero => intro rects h; omega
  | succ n ih =>
    intro rects h
    simp only [mergeLoop]
    rcases hch : (mergePass τ rects).2 with _ | _
    · exact ⟨rects, by simp [hch], hch⟩
    · simp only [hch, if_true]
      have := mergePass_length_lt τ rects hch
      exact ih (mergePass τ rects).1 (by omega)

/-- The merge result is pairwise non-adjacent. -/
theorem merge_rects_pairwise (τ : ℚ) (rects : List Rect) :
    List.Pairwise (fun a b => adjacent τ a b = false) (_merge_rects rects τ) := by
  obtain ⟨l, hl, hfalse⟩ := merge_reaches_fixpoint τ (rects.length + 1) rects (by omega)
  rw [_merge_rects, hl]
  have heq : runPass τ l.reverse [] false = ((mergePass τ l).1, false) := by
    conv_rhs => rw [← hfalse]
    rfl
  obtain ⟨-, hp⟩ := runPass_false_pairwise τ l.reverse [] (mergePass τ l).1 heq (by simp)
  exact hp

/-- Every input rectangle is covered by some merge output. -/
theorem merge_rects_covers (τ : ℚ) (rects : List Rect) (r : Rect) (hr : r ∈ rects) :
    ∃ o ∈ _merge_rects rects τ, o.contains r = true :=
  mergeLoop_covers τ (rects.length + 1) rects r ⟨r, hr, Rect.contains_refl r⟩

theorem adjacent_eq_false_iff (τ : ℚ) (a b : Rect) :
    adjacent τ a b = false ↔ ((Rect.inter a b).is_empty = true ∧ _iou a b < τ) := by
  simp only [adjacent, Bool.or_eq_false_iff, decide_eq_false_iff_not, not_le,
    Bool.not_eq_false']
  exact and_comm

/-- Two rectangles both containing a nonempty rectangle overlap. -/
theorem inter_nonempty_of_contains {a b r : Rect} (ha : a.contains r = true)
    (hb : b.contains r = true) (hr : r.is_empty = false) :
    (Rect.inter a b).is_empty = false := by
  rw [Rect.contains_iff] at ha hb
  rw [Rect.not_is_empty_iff] at hr ⊢
  simp only [Rect.inter]
  obtain ⟨a1, a2, a3, a4⟩ := ha
  obtain ⟨b1, b2, b3, b4⟩ := hb
  constructor
  · have h1 : max a.x0 b.x0 ≤ r.x0 := max_le a1 b1
    have h2 : r.x1 ≤ min a.x1 b.x1 := le_min a3 b3
    have := hr.1
    linarith
  · have h1 : max a.y0 b.y0 ≤ r.y0 := max_le a2 b2
    have h2 : r.y1 ≤ min a.y1 b.y1 := le_min a4 b4
    have := hr.2
    linarith

/-- Among pairwise non-adjacent rectangles, exactly one contains any given
    nonempty rectangle that is contained at all. -/
theorem covered_count_eq_one {τ : ℚ} {out : List Rect} {r : Rect}
    (hp : List.Pairwise (fun a b => adjacent τ a b = false) out)
    (hex : ∃ o ∈ out, o.contains r = true) (hr : r.is_empty = false) :
    List.countP (fun o => o.contains r) out = 1 := by
  rw [List.countP_eq_length_filter]
  have hsub : (out.filter (fun o => o.contains r)).Sublist out := List.filter_sublist out
  have hp2 : List.Pairwise (fun a b => adjacent τ a b = false)
      (out.filter (fun o => o.contains r)) := List.Pairwise.sublist hsub hp
  obtain ⟨o, ho, hco⟩ := hex
  have hmem : o ∈ out.filter (fun o => o.contains r) := List.mem_filter.mpr ⟨ho, hco⟩
  have hne : out.filter (fun o => o.contains r) ≠ [] := by
    intro h0
    rw [h0] at hmem
    simp at hmem
  have hlt : (out.filter (fun o => o.contains r)).length < 2 := by
    by_contra hge
    push_neg at hge
    obtain ⟨a, l1, h1⟩ := List.exists_cons_of_ne_nil hne
    have hne1 : l1 ≠ [] := by
      intro h0
      rw [h1, h0] at hge
      simp at hge
    obtain ⟨b, t, h2⟩ := List.exists_cons_of_ne_nil hne1
    rw [h1, h2] at hp2
    have hab : adjacent τ a b = false := (List.pairwise_cons.mp hp2).1 b (by simp)
    have hae : (Rect.inter a b).is_empty = true := ((adjacent_eq_false_iff τ a b).mp hab).1
    have hamem : a ∈ out.filter (fun o => o.contains r) := by rw [h1]; simp
    have hbmem : b ∈ out.filter (fun o => o.contains r) := by rw [h1, h2]; simp
    have hca : a.contains r = true := (List.mem_filter.mp hamem).2
    have hcb : b.contains r = true := (List.mem_filter.mp hbmem).2
    have := inter_nonempty_of_contains hca hcb hr
    rw [hae] at this
    simp at this
  have hne0 : (out.filter (fun o => o.contains r)).length ≠ 0 := by
    intro h0
    exact hne (List.length_eq_zero.mp h0)
  omega

/-! ### C2: the merge contract -/

/-- C2 counterexample: on the input `[A, C]` with `A = (0,0,1,1)` and the
    degenerate rectangle `C = (1,0,1,1/2)` (zero width, sitting on `A`'s
    right edge), `_merge_rects` leaves both rectangles unmerged, yet the
    input rectangle `C` is contained in BOTH distinct output rectangles —
    refuting "every input rectangle is contained within exactly one output
    rectangle". -/
theorem C2_counterexample :
    _merge_rects [⟨0, 0, 1, 1⟩, ⟨1, 0, 1, 1/2⟩] (15/100) = [⟨1, 0, 1, 1/2⟩, ⟨0, 0, 1, 1⟩] ∧
    (⟨1, 0, 1, 1/2⟩ : Rect) ≠ ⟨0, 0, 1, 1⟩ ∧
    Rect.contains ⟨1, 0, 1, 1/2⟩ ⟨1, 0, 1, 1/2⟩ = true ∧
    Rect.contains ⟨0, 0, 1, 1⟩ ⟨1, 0, 1, 1/2⟩ = true ∧
    List.countP (fun o => o.contains ⟨1, 0, 1, 1/2⟩)
      (_merge_rects [⟨0, 0, 1, 1⟩, ⟨1, 0, 1, 1/2⟩] (15/100)) = 2 := by
  with_unfolding_all decide

/-- C2 (amended): for every input list and threshold, no two output
    rectangles of `_merge_rects` overlap and no two have IoU ≥ τ; every
    input rectangle is contained in at least one output rectangle, and
    every NONEMPTY input rectangle in exactly one (degenerate inputs can be
    contained in several outputs, as the counterexample shows). -/
theorem C2_merge_rects_contract (τ : ℚ) (rects : List Rect) :
    List.Pairwise (fun a b => (Rect.inter a b).is_empty = true ∧ _iou a b < τ)
      (_merge_rects rects τ) ∧
    ∀ r ∈ rects, (∃ o ∈ _merge_rects rects τ, o.contains r = true) ∧
      (r.is_empty = false →
        List.countP (fun o => o.contains r) (_merge_rects rects τ) = 1) := by
  have hp := merge_rects_pairwise τ rects
  refine ⟨hp.imp (fun {a b} h => (adjacent_eq_false_iff τ a b).mp h), ?_⟩
  intro r hr
  have hex := merge_rects_covers τ rects r hr
  exact ⟨hex, fun hne => covered_count_eq_one hp hex hne⟩

/-- Witness for `C2_merge_rects_contract` at a concrete input: two disjoint
    unit squares; the first input is covered by exactly one output. -/
theorem C2_witness :
    (∃ o ∈ _merge_rects [⟨0, 0, 1, 1⟩, ⟨2, 0, 3, 1⟩] (15/100),
      o.contains ⟨0, 0, 1, 1⟩ = true) ∧
    List.countP (fun o => o.contains ⟨0, 0, 1, 1⟩)
      (_merge_rects [⟨0, 0, 1, 1⟩, ⟨2, 0, 3, 1⟩] (15/100)) = 1 := by
  have h := (C2_merge_rects_contract (15/100) [⟨0, 0, 1, 1⟩, ⟨2, 0, 3, 1⟩]).2
    ⟨0, 0, 1, 1⟩ (by simp)
  exact ⟨h.1, h.2 (by with_unfolding_all decide)⟩

/-! ### C5: termination of the merge loop -/

/-- C5: `_merge_rects` terminates on every finite input list: a pass that
    performs at least one merge strictly reduces the rectangle count; a
    pass with zero merges halts the outer loop (the result is that pass's
    output); and once the fuel exceeds the input length the loop has
    reached its answer — more fuel never changes it. -/
theorem C5_merge_rects_termination (τ : ℚ) (rects : List Rect) :
    ((mergePass τ rects).2 = true → (mergePass τ rects).1.length < rects.length) ∧
    ((mergePass τ rects).2 = false → _merge_rects rects τ = (mergePass τ rects).1) ∧
    (∀ fuel, rects.length < fuel → mergeLoop τ fuel rects = _merge_rects rects τ) := by
  refine ⟨mergePass_length_lt τ rects, ?_, ?_⟩
  · intro h
    simp [_merge_rects, mergeLoop, h]
  · intro fuel hf
    exact mergeLoop_stable τ fuel (rects.length + 1) rects hf (by omega)

/-- Witness for `C5_merge_rects_termination`: two overlapping squares merge
    (strictly shrinking the list), and fuel 5 already computes
    `_merge_rects`. -/
theorem C5_witness :
    (mergePass (15/100) [⟨0, 0, 2, 2⟩, ⟨1, 1, 3, 3⟩]).1.length <
      ([⟨0, 0, 2, 2⟩, ⟨1, 1, 3, 3⟩] : List Rect).length ∧
    mergeLoop (15/100) 5 [⟨0, 0, 2, 2⟩, ⟨1, 1, 3, 3⟩] =
      _merge_rects [⟨0, 0, 2, 2⟩, ⟨1, 1, 3, 3⟩] (15/100) := by
  constructor
  · exact (C5_merge_rects_termination (15/100) [⟨0, 0, 2, 2⟩, ⟨1, 1, 3, 3⟩]).1
      (by with_unfolding_all decide)
  · exact (C5_merge_rects_termination (15/100) [⟨0, 0, 2, 2⟩, ⟨1, 1, 3, 3⟩]).2.2 5
      (by with_unfolding_all decide)

/-! ### C6: the merge is a fixed point on its own output -/

/-- C6: re-running `_merge_rects` on its own output (same τ) performs no
    merge: the second run returns the same rectangles (as a set — the pass
    mechanics reverse the list), and no further merges are possible. -/
theorem C6_merge_rects_fixed_point (τ : ℚ) (rects : List Rect) :
    _merge_rects (_merge_rects rects τ) τ = (_merge_rects rects τ).reverse ∧
    List.Perm (_merge_rects (_merge_rects rects τ) τ) (_merge_rects rects τ) ∧
    (mergePass τ (_merge_rects rects τ)).2 = false := by
  have hp := merge_rects_pairwise τ rects
  have hpass := mergePass_of_pairwise τ _ hp
  have h1 : _merge_rects (_merge_rects rects τ) τ = (_merge_rects rects τ).reverse := by
    rw [_merge_rects]
    simp [mergeLoop, hpass]
  refine ⟨h1, ?_, by rw [hpass]⟩
  rw [h1]
  exact List.reverse_perm _

/-! ### C1: confluence of the nondeterministic merge relation -/

theorem adjacent_symm {τ : ℚ} {a b : Rect} (h : adjacent τ a b = true) :
    adjacent τ b a = true := by
  rwa [adjacent_comm] at h

theorem adjacent_union_of_left {τ : ℚ} {c a : Rect} (b : Rect)
    (h : adjacent τ c a = true) : adjacent τ c (Rect.union a b) = true :=
  adjacent_mono h (Rect.union_contains_left a b)

theorem adjacent_union_of_right {τ : ℚ} {c b : Rect} (a : Rect)
    (h : adjacent τ c b = true) : adjacent τ c (Rect.union a b) = true :=
  adjacent_mono h (Rect.union_contains_right a b)

theorem Rect.union_right_comm (a b d : Rect) :
    Rect.union (Rect.union a b) d = Rect.union (Rect.union a d) b := by
  rw [Rect.union_assoc, Rect.union_assoc, Rect.union_comm b d]

/-- One nondeterministic merge step on the working collection: pick any two
    rectangles adjacent under the merge predicate and replace them by their
    bounding-box union.  Any pop order of `_merge_rects` performs a
    sequence of such steps. -/
def MStep (τ : ℚ) (s t : Multiset Rect) : Prop :=
  ∃ a b rest, s = a ::ₘ b ::ₘ rest ∧ adjacent τ a b = true ∧ t = Rect.union a b ::ₘ rest

theorem MStep_card {τ : ℚ} {s t : Multiset Rect} (h : MStep τ s t) :
    t.card + 1 = s.card := by
  obtain ⟨a, b, rest, rfl, -, rfl⟩ := h
  simp

/-- Joining two merge steps that consumed a common rectangle `x`: merge the
    remaining partner into the union on each side; both sides arrive at
    `union (union x y) z` up to associativity/commutativity. -/
theorem MStep_join_share (τ : ℚ) (x y z : Rect) (rest : Multiset Rect)
    (hxy : adjacent τ x y = true) (hxz : adjacent τ x z = true) :
    ∃ u, MStep τ (Rect.union x y ::ₘ z ::ₘ rest) u ∧
      MStep τ (Rect.union x z ::ₘ y ::ₘ rest) u := by
  refine ⟨Rect.union (Rect.union x y) z ::ₘ rest, ?_, ?_⟩
  · exact ⟨Rect.union x y, z, rest, rfl,
      adjacent_symm (adjacent_union_of_left y (adjacent_symm hxz)), rfl⟩
  · refine ⟨Rect.union x z, y, rest, rfl,
      adjacent_symm (adjacent_union_of_left z (adjacent_symm hxy)), ?_⟩
    rw [Rect.union_right_comm]

/-- Local confluence of the merge step: two steps from the same collection
    either coincide or can be joined by one further step on each side. -/
theorem MStep_diamond {τ : ℚ} {s t₁ t₂ : Multiset Rect}
    (h1 : MStep τ s t₁) (h2 : MStep τ s t₂) :
    t₁ = t₂ ∨ ∃ u, MStep τ t₁ u ∧ MStep τ t₂ u := by
  obtain ⟨a, b, r₁, hs1, hab, ht1⟩ := h1
  obtain ⟨c, d, r₂, hs2, hcd, ht2⟩ := h2
  rw [hs1] at hs2
  rcases Multiset.cons_eq_cons.mp hs2 with ⟨hac, h2x⟩ | ⟨hnac, cs, hcs1, hcs2⟩
  · subst hac
    rcases Multiset.cons_eq_cons.mp h2x with ⟨hbd, hr⟩ | ⟨hnbd, es, hes1, hes2⟩
    · subst hbd
      subst hr
      left
      rw [ht1, ht2]
    · -- pairs (a,b) and (a,d) share a
      subst hes1
      subst hes2
      right
      obtain ⟨u, hu1, hu2⟩ := MStep_join_share τ a b d es hab hcd
      exact ⟨u, by rw [ht1]; exact hu1, by rw [ht2]; exact hu2⟩
  · rcases Multiset.cons_eq_cons.mp hcs1 with ⟨hbc, hr1cs⟩ | ⟨hnbc, fs, hfs1, hfs2⟩
    · subst hbc
      subst hr1cs
      rcases Multiset.cons_eq_cons.mp hcs2 with ⟨hda, hr2r1⟩ | ⟨hnda, es, hes1, hes2⟩
      · -- the same pair, crossed: (a,b) and (b,a)
        rw [hda] at ht2
        subst hr2r1
        left
        rw [ht1, ht2, Rect.union_comm a b]
      · -- pairs (a,b) and (b,d) share b
        subst hes1
        subst hes2
        right
        obtain ⟨u, hu1, hu2⟩ := MStep_join_share τ b a d es (adjacent_symm hab) hcd
        exact ⟨u, by rw [ht1, Rect.union_comm a b]; exact hu1, by rw [ht2]; exact hu2⟩
    · subst hfs1
      subst hfs2
      rcases Multiset.cons_eq_cons.mp hcs2 with ⟨hda, hr2⟩ | ⟨hnda, gs, hgs1, hgs2⟩
      · -- pairs (a,b) and (c,a) share a
        rw [hda] at ht2 hcd
        subst hr2
        right
        obtain ⟨u, hu1, hu2⟩ := MStep_join_share τ a b c fs hab (adjacent_symm hcd)
        exact ⟨u, by rw [ht1]; exact hu1, by rw [ht2, Rect.union_comm c a]; exact hu2⟩
      · rcases Multiset.cons_eq_cons.mp hgs2 with ⟨hbd, hfg⟩ | ⟨hnbd2, hs, hhs1, hhs2⟩
        · -- pairs (a,b) and (c,b) share b
          rw [← hbd] at ht2 hcd
          subst hfg
          subst hgs1
          right
          obtain ⟨u, hu1, hu2⟩ :=
            MStep_join_share τ b a c fs (adjacent_symm hab) (adjacent_symm hcd)
          exact ⟨u, by rw [ht1, Rect.union_comm a b]; exact hu1,
            by rw [ht2, Rect.union_comm c b]; exact hu2⟩
        · -- disjoint pairs (a,b) and (c,d)
          subst hhs1
          subst hhs2
          subst hgs1
          right
          refine ⟨Rect.union a b ::ₘ Rect.union c d ::ₘ hs, ?_, ?_⟩
          · refine ⟨c, d, Rect.union a b ::ₘ hs, ?_, hcd, ?_⟩
            · rw [ht1, Multiset.cons_swap (Rect.union a b) c,
                Multiset.cons_swap (Rect.union a b) d]
            · exact (Multiset.cons_swap _ _ _).symm
          · refine ⟨a, b, Rect.union c d ::ₘ hs, ?_, hab, ?_⟩
            · rw [ht2, Multiset.cons_swap (Rect.union c d) a,
                Multiset.cons_swap (Rect.union c d) b]
            · rfl

/-- Predicate: `s` admits no merge step (a normal form of the merge relation). -/
def MNf (τ : ℚ) (s : Multiset Rect) : Prop := ∀ t, ¬ MStep τ s t

theorem rtg_of_nf {τ : ℚ} {s t : Multiset Rect} (hnf : MNf τ s)
    (h : Relation.ReflTransGen (MStep τ) s t) : t = s := by
  rcases Relation.ReflTransGen.cases_head h with rfl | ⟨c, hc, -⟩
  · rfl
  · exact absurd hc (hnf c)

/-- Uniqueness of normal forms of the merge relation (confluence, via the
    Church–Rosser property derived from the local diamond). -/
theorem MStep_nf_unique {τ : ℚ} {s n₁ n₂ : Multiset Rect}
    (h1 : Relation.ReflTransGen (MStep τ) s n₁)
    (h2 : Relation.ReflTransGen (MStep τ) s n₂)
    (hn1 : MNf τ n₁) (hn2 : MNf τ n₂) : n₁ = n₂ := by
  have hdiamond : ∀ x y z : Multiset Rect, MStep τ x y → MStep τ x z →
      ∃ d, Relation.ReflGen (MStep τ) y d ∧ Relation.ReflTransGen (MStep τ) z d := by
    intro x y z hxy hxz
    rcases MStep_diamond hxy hxz with heq | ⟨u, hu1, hu2⟩
    · subst heq
      exact ⟨y, Relation.ReflGen.refl, Relation.ReflTransGen.refl⟩
    · exact ⟨u, Relation.ReflGen.single hu1, Relation.ReflTransGen.single hu2⟩
  obtain ⟨w, hw1, hw2⟩ := Relation.church_rosser hdiamond h1 h2
  rw [← rtg_of_nf hn1 hw1, ← rtg_of_nf hn2 hw2]

theorem MStep_add_right {τ : ℚ} {s t : Multiset Rect} (h : MStep τ s t)
    (w : Multiset Rect) : MStep τ (s + w) (t + w) := by
  obtain ⟨a, b, rest, rfl, hadj, rfl⟩ := h
  exact ⟨a, b, rest + w, by simp [Multiset.cons_add], hadj, by simp [Multiset.cons_add]⟩

theorem MStep_add_left {τ : ℚ} {s t : Multiset Rect} (h : MStep τ s t)
    (w : Multiset Rect) : MStep τ (w + s) (w + t) := by
  rw [add_comm w s, add_comm w t]
  exact MStep_add_right h w

/-- A merging insertion is one merge step on the collection `{r} + out`. -/
theorem passInsert_mstep_true (τ : ℚ) (out : List Rect) (r : Rect)
    (h : (passInsert τ out r).2 = true) :
    MStep τ (r ::ₘ (↑out : Multiset Rect)) ↑((passInsert τ out r).1) := by
  obtain ⟨pre, o, post, hs, hadj, hout⟩ := passInsert_eq_true τ r out _ (by rw [← h])
  refine ⟨o, r, ↑(pre ++ post), ?_, hadj, ?_⟩
  · rw [hs, Multiset.cons_coe, Multiset.cons_coe, Multiset.cons_coe]
    exact Multiset.coe_eq_coe.mpr
      (List.Perm.trans (List.Perm.cons r List.perm_middle)
        (List.Perm.swap o r (pre ++ post)))
  · rw [hout, Multiset.cons_coe]
    exact Multiset.coe_eq_coe.mpr List.perm_middle

/-- A non-merging insertion leaves the collection unchanged. -/
theorem passInsert_coe_false (τ : ℚ) (out : List Rect) (r : Rect)
    (h : (passInsert τ out r).2 = false) :
    (↑((passInsert τ out r).1) : Multiset Rect) = r ::ₘ ↑out := by
  obtain ⟨h1, -⟩ := passInsert_eq_false τ r out _ (by rw [← h])
  rw [h1, Multiset.cons_coe]
  exact Multiset.coe_eq_coe.mpr (List.perm_append_singleton r out)

/-- A pass is a sequence of merge steps on the working collection. -/
theorem runPass_rtg (τ : ℚ) : ∀ rs out c,
    Relation.ReflTransGen (MStep τ) (↑rs + ↑out) ↑((runPass τ rs out c).1) := by
  intro rs
  induction rs with
  | nil =>
    intro out c
    simp only [runPass]
    have : ((↑([] : List Rect) : Multiset Rect) + ↑out) = ↑out := by
      simp
    rw [this]
  | cons r rest ih =>
    intro out c
    simp only [runPass]
    have hstate : ((↑(r :: rest) : Multiset Rect) + ↑out) = ↑rest + (r ::ₘ ↑out) := by
      rw [← Multiset.cons_coe, Multiset.cons_add, Multiset.add_cons]
    rw [hstate]
    rcases hm : (passInsert τ out r).2 with _ | _
    · have h2 := ih (passInsert τ out r).1 (c || (passInsert τ out r).2)
      rw [passInsert_coe_false τ out r hm, hm] at h2
      exact h2
    · have hstep := MStep_add_left (passInsert_mstep_true τ out r hm) ↑rest
      have h2 := ih (passInsert τ out r).1 (c || (passInsert τ out r).2)
      rw [hm] at h2
      exact Relation.ReflTransGen.head hstep h2

theorem mergePass_rtg (τ : ℚ) (rects : List Rect) :
    Relation.ReflTransGen (MStep τ) ↑rects ↑((mergePass τ rects).1) := by
  have h := runPass_rtg τ rects.reverse [] false
  have hstart : ((↑rects.reverse : Multiset Rect) + ↑([] : List Rect)) = ↑rects := by
    simp [Multiset.coe_reverse]
  rw [hstart] at h
  exact h

theorem mergeLoop_rtg (τ : ℚ) : ∀ (fuel : Nat) (rects : List Rect),
    Relation.ReflTransGen (MStep τ) ↑rects ↑(mergeLoop τ fuel rects) := by
  intro fuel
  induction fuel with
  | zero =>
    intro rects
    simp only [mergeLoop]
    exact Relation.ReflTransGen.refl
  | succ n ih =>
    intro rects
    simp only [mergeLoop]
    rcases hc : (mergePass τ rects).2 with _ | _
    · simp only [hc, Bool.false_eq_true, if_false]
      exact mergePass_rtg τ rects
    · simp only [hc, if_true]
      exact Relation.ReflTransGen.trans (mergePass_rtg τ rects) (ih (mergePass τ rects).1)

theorem merge_rects_rtg (τ : ℚ) (rects : List Rect) :
    Relation.ReflTransGen (MStep τ) ↑rects ↑(_merge_rects rects τ) :=
  mergeLoop_rtg τ (rects.length + 1) rects

/-- A pairwise non-adjacent list admits no merge step. -/
theorem pairwise_nf {τ : ℚ} {l : List Rect}
    (hp : List.Pairwise (fun a b => adjacent τ a b = false) l) : MNf τ ↑l := by
  rintro t ⟨a, b, rest, hs, hadj, -⟩
  obtain ⟨lr, rfl⟩ := Quotient.exists_rep rest
  have hs2 : (↑l : Multiset Rect) = ↑(a :: b :: lr) := hs
  have hperm : List.Perm l (a :: b :: lr) := Multiset.coe_eq_coe.mp hs2
  have hsymm : ∀ {x y : Rect}, adjacent τ x y = false → adjacent τ y x = false := by
    intro x y hxy
    rwa [adjacent_comm] at hxy
  have hp2 : List.Pairwise (fun a b => adjacent τ a b = false) (a :: b :: lr) :=
    (hperm.pairwise_iff (fun hxy => hsymm hxy)).mp hp
  have : adjacent τ a b = false := (List.pairwise_cons.mp hp2).1 b (by simp)
  rw [hadj] at this
  simp at this

/-! ### C1 claim -/

/-- C1 counterexample to "equal to the transitive-closure clustering":
    with `A = (0,0,10,1)`, `B = (0,0,1,10)` (an overlapping L-shape) and
    `D = (5,5,6,6)`, the rectangle `D` is adjacent to neither `A` nor `B`
    (τ = 0.15), so under the claimed transitive-closure clustering `D`
    forms a singleton cluster and must appear as its own output rectangle.
    The code instead first merges `A` and `B` into their bounding box
    `(0,0,10,10)`, which swallows `D` in the next pass: the output is the
    single rectangle `(0,0,10,10)` and `D` is not in it. -/
theorem C1_counterexample :
    adjacent (15/100) ⟨0, 0, 10, 1⟩ ⟨5, 5, 6, 6⟩ = false ∧
    adjacent (15/100) ⟨0, 0, 1, 10⟩ ⟨5, 5, 6, 6⟩ = false ∧
    adjacent (15/100) ⟨0, 0, 10, 1⟩ ⟨0, 0, 1, 10⟩ = true ∧
    _merge_rects [⟨0, 0, 10, 1⟩, ⟨0, 0, 1, 10⟩, ⟨5, 5, 6, 6⟩] (15/100) = [⟨0, 0, 10, 10⟩] ∧
    ¬ (⟨5, 5, 6, 6⟩ : Rect) ∈
        _merge_rects [⟨0, 0, 10, 1⟩, ⟨0, 0, 1, 10⟩, ⟨5, 5, 6, 6⟩] (15/100) := by
  with_unfolding_all decide

/-- C1 (amended): the pop order is irrelevant — processing the rectangles
    in any order (any permutation of the working list) yields the same
    final multiset of rectangles.  (The characterization of that result as
    the transitive-closure clustering of the inputs is dropped: the
    counterexample shows merged bounding boxes can swallow rectangles that
    were adjacent to no input of their cluster.) -/
theorem C1_merge_rects_order_independence (τ : ℚ) (l₁ l₂ : List Rect)
    (h : List.Perm l₁ l₂) :
    List.Perm (_merge_rects l₁ τ) (_merge_rects l₂ τ) := by
  have hs : (↑l₁ : Multiset Rect) = ↑l₂ := Multiset.coe_eq_coe.mpr h
  have r1 := merge_rects_rtg τ l₁
  have r2 := merge_rects_rtg τ l₂
  rw [← hs] at r2
  have hnf1 : MNf τ ↑(_merge_rects l₁ τ) := pairwise_nf (merge_rects_pairwise τ l₁)
  have hnf2 : MNf τ ↑(_merge_rects l₂ τ) := pairwise_nf (merge_rects_pairwise τ l₂)
  exact Multiset.coe_eq_coe.mp (MStep_nf_unique r1 r2 hnf1 hnf2)

/-- Witness for `C1_merge_rects_order_independence`: two orders of the same
    three rectangles. -/
theorem C1_witness :
    List.Perm (_merge_rects [⟨0, 0, 2, 2⟩, ⟨1, 1, 3, 3⟩, ⟨8, 8, 9, 9⟩] (15/100))
      (_merge_rects [⟨8, 8, 9, 9⟩, ⟨1, 1, 3, 3⟩, ⟨0, 0, 2, 2⟩] (15/100)) :=
  C1_merge_rects_order_independence (15/100) _ _ (by with_unfolding_all decide)

/-! ### Embedding of the document pipeline

The PyMuPDF document backend is data: a document is its list of pages, a
page carries the entries of `page.get_images(full=True)` (xref plus the
result of `doc.extract_image(xref)`, `none` when that call raises) and the
bounding rectangles of `page.get_drawings()` (`d.get("rect")`, `none` when
absent).  The selection logic of `extract_embedded_images` and
`detect_vector_regions` is translated loop by loop; the per-item data-URI
encoding step is applied pointwise to the selected candidates and does not
affect counts, pages or order, so results here carry the selected
candidate record itself. -/

/-- The record returned by `doc.extract_image(xref)`: pixel width/height,
    encoding hint and raw bytes. -/
structure BaseImage where
  width : Nat
  height : Nat
  ext : String
  img : List Nat
deriving DecidableEq, Repr

/-- One entry of `page.get_images(full=True)`: its xref and the outcome of
    `doc.extract_image(xref)` (`none` models the call raising). -/
structure ImgRef where
  xref : Nat
  base : Option BaseImage
deriving DecidableEq, Repr

/-- One page as seen by the extraction engine. -/
structure Page where
  images : List ImgRef
  drawings : List (Option Rect)
deriving DecidableEq, Repr

/-- The configuration fields read by the two extraction methods.  They are
    parsed from environment variables with `int(...)`/`float(...)`, so the
    integer caps are `Int` (overrides may be negative). -/
structure Config where
  max_images_per_page : Int
  max_total_images : Int
  min_image_area : Int
  max_vector_regions_per_page : Int
  max_vector_regions_total : Int
  min_vector_area_pt : ℚ
  region_pad_pt : ℚ
deriving DecidableEq, Repr

/-- Python's `l[:k]` — a possibly negative stop counts from the end. -/
def pySlice {α : Type} (k : Int) (l : List α) : List α :=
  if k < 0 then l.take (l.length - k.natAbs) else l.take k.toNat

/-- The `seen_xrefs` loop: keep the first occurrence of each xref. -/
def dedupXrefs (seen : List Nat) : List ImgRef → List ImgRef
  | [] => []
  | i :: rest =>
    if i.xref ∈ seen then dedupXrefs seen rest
    else i :: dedupXrefs (i.xref :: seen) rest

/-- The ranking key `w * h` of an extracted image. -/
def imgArea (b : BaseImage) : Nat := b.width * b.height

/-- Candidate collection of `extract_embedded_images` on one page:
    deduplicate by xref, skip candidates whose extraction raised, and drop
    those with area below `min_image_area`. -/
def pageCandidates (cfg : Config) (pg : Page) : List BaseImage :=
  (dedupXrefs [] pg.images).filterMap (fun i =>
    match i.base with
    | none => none
    | some b => if (imgArea b : Int) < cfg.min_image_area then none else some b)

/-- Stable insertion (descending by key): an element placed later keeps its
    position after earlier elements of equal key — the order produced by
    Python's stable `sort(key=..., reverse=True)`. -/
def insertDesc {α β : Type} [LinearOrder β] (key : α → β) (x : α) : List α → List α
  | [] => [x]
  | y :: ys => if key x < key y then y :: insertDesc key x ys else x :: y :: ys

/-- Stable sort, descending by key (`list.sort(key=..., reverse=True)`). -/
def sortDesc {α β : Type} [LinearOrder β] (key : α → β) : List α → List α
  | [] => []
  | x :: xs => insertDesc key x (sortDesc key xs)

/-- The inner selection loop of `extract_embedded_images`: append ranked
    candidates until the global total reaches `max_total_images`. -/
def capLoop {α : Type} (cap : Int) : Nat → List α → List α
  | _, [] => []
  | total, x :: xs => if cap ≤ (total : Int) then [] else x :: capLoop cap (total + 1) xs

/-- One page's selections in `extract_embedded_images`: rank by area
    descending, take the page cap slice, then append until the global cap
    (`total` already selected on earlier pages). -/
def pagePick (cfg : Config) (total : Nat) (pg : Page) : List BaseImage :=
  capLoop cfg.max_total_images total
    (pySlice cfg.max_images_per_page (sortDesc imgArea (pageCandidates cfg pg)))

/-- Page loop of `extract_embedded_images`, threading the page index and
    the global counter, stopping after a page that reaches the cap. -/
def extractGo (cfg : Config) : Nat → Nat → List Page → List (Nat × BaseImage)
  | _, _, [] => []
  | pidx, total, pg :: rest =>
    if cfg.max_total_images ≤ ((total + (pagePick cfg total pg).length : Nat) : Int) then
      (pagePick cfg total pg).map (fun b => (pidx, b))
    else
      (pagePick cfg total pg).map (fun b => (pidx, b)) ++
        extractGo cfg (pidx + 1) (total + (pagePick cfg total pg).length) rest

/-- Embedding of `DecomposedPDF.extract_embedded_images` (selection core). -/
def extract_embedded_images (cfg : Config) (doc : List Page) : List (Nat × BaseImage) :=
  extractGo cfg 0 0 doc

/-- Drawing-rectangle collection of `detect_vector_regions` on one page:
    drop missing rects and those with area < `min_vector_area_pt`, then pad
    by `region_pad_pt`. -/
def pageRects (cfg : Config) (pg : Page) : List Rect :=
  ((pg.drawings.filterMap id).filter
    (fun r => cfg.min_vector_area_pt ≤ r.get_area)).map
    (fun r => _expand_rect r cfg.region_pad_pt)

/-- The `kept`/`total` loop of `detect_vector_regions`: stop as soon as the
    per-page or the global cap is reached, even mid-page. -/
def vecCapLoop (perCap totCap : Int) : Nat → Nat → List Rect → List Rect
  | _, _, [] => []
  | kept, total, R :: Rs =>
    if perCap ≤ (kept : Int) ∨ totCap ≤ (total : Int) then []
    else R :: vecCapLoop perCap totCap (kept + 1) (total + 1) Rs

/-- One page's kept regions in `detect_vector_regions`: merge the padded
    rectangles, rank by area descending, then keep until the page cap or
    the remaining global budget runs out. -/
def vecPick (cfg : Config) (total : Nat) (pg : Page) : List Rect :=
  vecCapLoop cfg.max_vector_regions_per_page cfg.max_vector_regions_total 0 total
    (sortDesc Rect.get_area (_merge_rects (pageRects cfg pg) (15/100)))

/-- Page loop of `detect_vector_regions`. -/
def detectGo (cfg : Config) : Nat → Nat → List Page → List (Nat × Rect)
  | _, _, [] => []
  | pidx, total, pg :: rest =>
    if (pageRects cfg pg).isEmpty then detectGo cfg (pidx + 1) total rest
    else
      if cfg.max_vector_regions_total ≤ ((total + (vecPick cfg total pg).length : Nat) : Int) then
        (vecPick cfg total pg).map (fun R => (pidx, R))
      else
        (vecPick cfg total pg).map (fun R => (pidx, R)) ++
          detectGo cfg (pidx + 1) (total + (vecPick cfg total pg).length) rest

/-- Embedding of `DecomposedPDF.detect_vector_regions` (selection core). -/
def detect_vector_regions (cfg : Config) (doc : List Page) : List (Nat × Rect) :=
  detectGo cfg 0 0 doc

/-- Embedding of `DecomposedPDF.__post_init__`: raises when the file read produced empty
    bytes; `fitz.open` raising on unreadable bytes is the backend failing,
    modelled by `openResult = none`. -/
def post_init (pdf_bytes : List Nat) (openResult : Option (List Page)) :
    Except String (List Page) :=
  if pdf_bytes.isEmpty then Except.error "PDF is empty or unreadable"
  else
    match openResult with
    | none => Except.error "unreadable"
    | some doc => Except.ok doc

/-- Embedding of `_resize_if_needed`: `dims` models `Image.open(...).size`, `reenc` the
    resize/convert/save pipeline of the codec; `none` from either models a
    raised exception, which the `except` swallows by falling back to the
    original bytes and lowercased extension. -/
def _resize_if_needed (dims : List Nat → Option (Nat × Nat))
    (reenc : List Nat → Nat → Nat → String → Option (List Nat))
    (image_bytes : List Nat) (ext : String) (max_dim : Int) : List Nat × String :=
  match dims image_bytes with
  | none => (image_bytes, ext.toLower)
  | some (w, h) =>
    if max_dim ≠ 0 ∧ max_dim < ((max w h : Nat) : Int) then
      match reenc image_bytes w h ext with
      | some out =>
        (out, if ext.toLower = "jpg" ∨ ext.toLower = "jpeg" then "jpeg" else "png")
      | none => (image_bytes, ext.toLower)
    else (image_bytes, ext.toLower)

/-- Embedding of `DecomposedPDF.render_vector_regions`: skip regions whose page index is
    out of range; a failing `get_pixmap` (`raster` returning `none`) drops
    that region and continues with the rest. -/
def render_vector_regions (page_count : Int) (raster : Int → Rect → Option (List Nat)) :
    List (Int × Rect) → List (Int × List Nat)
  | [] => []
  | (p, rect) :: rest =>
    if p < 0 ∨ page_count ≤ p then render_vector_regions page_count raster rest
    else
      match raster p rect with
      | none => render_vector_regions page_count raster rest
      | some png => (p, png) :: render_vector_regions page_count raster rest

/-! ### C3: cap invariants -/

/-- The global-cap loop is truncation at the remaining budget. -/
theorem capLoop_take {α : Type} (cap : Int) :
    ∀ (total : Nat) (l : List α), capLoop cap total l = l.take (cap - total).toNat := by
  intro total l
  induction l generalizing total with
  | nil => simp [capLoop]
  | cons x xs ih =>
    rw [capLoop]
    by_cases h : cap ≤ (total : Int)
    · rw [if_pos h]
      have h0 : (cap - total).toNat = 0 := by omega
      rw [h0]
      rfl
    · rw [if_neg h]
      rw [ih (total + 1)]
      have h0 : (cap - total).toNat = (cap - ((total : Nat) + 1 : Nat)).toNat + 1 := by
        push_cast
        omega
      rw [h0]
      rfl

/-- The per-page/global loop of the vector detector is truncation at the
    minimum of the page budget and the REMAINING global budget — processing
    stops mid-page as soon as the global cap is hit. -/
theorem vecCapLoop_take (per tot : Int) :
    ∀ (kept total : Nat) (l : List Rect),
      vecCapLoop per tot kept total l =
        l.take (min (per - kept).toNat (tot - total).toNat) := by
  intro kept total l
  induction l generalizing kept total with
  | nil => simp [vecCapLoop]
  | cons R Rs ih =>
    rw [vecCapLoop]
    by_cases h : per ≤ (kept : Int) ∨ tot ≤ (total : Int)
    · rw [if_pos h]
      have h0 : min (per - kept).toNat (tot - total).toNat = 0 := by
        rcases h with h | h
        · have : (per - kept).toNat = 0 := by omega
          simp [this]
        · have : (tot - total).toNat = 0 := by omega
          simp [this]
      rw [h0]
      rfl
    · rw [if_neg h]
      push_neg at h
      rw [ih (kept + 1) (total + 1)]
      have e1 : (per - kept).toNat = (per - ((kept : Nat) + 1 : Nat)).toNat + 1 := by
        push_cast
        omega
      have e2 : (tot - total).toNat = (tot - ((total : Nat) + 1 : Nat)).toNat + 1 := by
        push_cast
        omega
      rw [e1, e2, Nat.succ_min_succ]
      rfl

theorem pagePick_length (cfg : Config) (total : Nat) (pg : Page) :
    (pagePick cfg total pg).length ≤ (cfg.max_total_images - total).toNat := by
  rw [pagePick, capLoop_take]
  simp [List.length_take]

theorem vecPick_length (cfg : Config) (total : Nat) (pg : Page) :
    (vecPick cfg total pg).length ≤ (cfg.max_vector_regions_total - total).toNat := by
  rw [vecPick, vecCapLoop_take]
  simp only [List.length_take]
  omega

/-- Global bound for the embedded-image page loop. -/
theorem extractGo_length (cfg : Config) :
    ∀ (pages : List Page) (pidx total : Nat),
      (extractGo cfg pidx total pages).length ≤ (cfg.max_total_images - total).toNat := by
  intro pages
  induction pages with
  | nil => intro pidx total; simp [extractGo]
  | cons pg rest ih =>
    intro pidx total
    rw [extractGo]
    have hp := pagePick_length cfg total pg
    by_cases h : cfg.max_total_images ≤ ((total + (pagePick cfg total pg).length : Nat) : Int)
    · rw [if_pos h]
      simpa using hp
    · rw [if_neg h]
      have hr := ih (pidx + 1) (total + (pagePick cfg total pg).length)
      simp only [List.length_append, List.length_map]
      omega

/-- Global bound for the vector-region page loop. -/
theorem detectGo_length (cfg : Config) :
    ∀ (pages : List Page) (pidx total : Nat),
      (detectGo cfg pidx total pages).length ≤
        (cfg.max_vector_regions_total - total).toNat := by
  intro pages
  induction pages with
  | nil => intro pidx total; simp [detectGo]
  | cons pg rest ih =>
    intro pidx total
    rw [detectGo]
    by_cases he : (pageRects cfg pg).isEmpty
    · rw [if_pos he]
      exact ih (pidx + 1) total
    · rw [if_neg he]
      have hp := vecPick_length cfg total pg
      by_cases h : cfg.max_vector_regions_total ≤
          ((total + (vecPick cfg total pg).length : Nat) : Int)
      · rw [if_pos h]
        simpa using hp
      · rw [if_neg h]
        have hr := ih (pidx + 1) (total + (vecPick cfg total pg).length)
        simp only [List.length_append, List.length_map]
        omega

/-- All entries produced from page `pidx` on carry page index ≥ `pidx`. -/
theorem extractGo_mem_page (cfg : Config) :
    ∀ (pages : List Page) (pidx total : Nat) x,
      x ∈ extractGo cfg pidx total pages → pidx ≤ x.1 := by
  intro pages
  induction pages with
  | nil => intro pidx total x hx; simp [extractGo] at hx
  | cons pg rest ih =>
    intro pidx total x hx
    rw [extractGo] at hx
    by_cases h : cfg.max_total_images ≤ ((total + (pagePick cfg total pg).length : Nat) : Int)
    · rw [if_pos h] at hx
      obtain ⟨b, -, rfl⟩ := List.mem_map.mp hx
      exact le_refl pidx
    · rw [if_neg h] at hx
      rcases List.mem_append.mp hx with hx | hx
      · obtain ⟨b, -, rfl⟩ := List.mem_map.mp hx
        exact le_refl pidx
      · exact le_trans (by omega) (ih (pidx + 1) _ x hx)

theorem detectGo_mem_page (cfg : Config) :
    ∀ (pages : List Page) (pidx total : Nat) x,
      x ∈ detectGo cfg pidx total pages → pidx ≤ x.1 := by
  intro pages
  induction pages with
  | nil => intro pidx total x hx; simp [detectGo] at hx
  | cons pg rest ih =>
    intro pidx total x hx
    rw [detectGo] at hx
    by_cases he : (pageRects cfg pg).isEmpty
    · rw [if_pos he] at hx
      exact le_trans (by omega) (ih (pidx + 1) total x hx)
    · rw [if_neg he] at hx
      by_cases h : cfg.max_vector_regions_total ≤
          ((total + (vecPick cfg total pg).length : Nat) : Int)
      · rw [if_pos h] at hx
        obtain ⟨R, -, rfl⟩ := List.mem_map.mp hx
        exact le_refl pidx
      · rw [if_neg h] at hx
        rcases List.mem_append.mp hx with hx | hx
        · obtain ⟨R, -, rfl⟩ := List.mem_map.mp hx
          exact le_refl pidx
        · exact le_trans (by omega) (ih (pidx + 1) _ x hx)

theorem pySlice_length_le {α : Type} (k : Int) (l : List α) (h : 0 ≤ k) :
    (pySlice k l).length ≤ k.toNat := by
  rw [pySlice, if_neg (not_lt.mpr h)]
  simp [List.length_take]

/-- Per-page bound for the embedded-image page loop. -/
theorem extractGo_countP (cfg : Config) (h2 : 0 ≤ cfg.max_images_per_page) :
    ∀ (pages : List Page) (pidx total : Nat) (p : Nat),
      List.countP (fun x => x.1 == p) (extractGo cfg pidx total pages) ≤
        cfg.max_images_per_page.toNat := by
  intro pages
  induction pages with
  | nil => intro pidx total p; simp [extractGo]
  | cons pg rest ih =>
    intro pidx total p
    have hpick : (pagePick cfg total pg).length ≤ cfg.max_images_per_page.toNat := by
      have h1 : (pagePick cfg total pg).length ≤
          (pySlice cfg.max_images_per_page (sortDesc imgArea (pageCandidates cfg pg))).length := by
        rw [pagePick, capLoop_take]
        simp [List.length_take]
      exact le_trans h1 (pySlice_length_le _ _ h2)
    have hhere : ∀ (pidx : Nat),
        List.countP (fun x => x.1 == p) ((pagePick cfg total pg).map (fun b => (pidx, b))) ≤
          cfg.max_images_per_page.toNat := by
      intro pidx
      exact le_trans (by simpa using List.countP_le_length _) (by simpa using hpick)
    rw [extractGo]
    by_cases h : cfg.max_total_images ≤ ((total + (pagePick cfg total pg).length : Nat) : Int)
    · rw [if_pos h]
      exact hhere pidx
    · rw [if_neg h]
      rw [List.countP_append]
      by_cases hp : p = pidx
      · have hzero : List.countP (fun x => x.1 == p)
            (extractGo cfg (pidx + 1) (total + (pagePick cfg total pg).length) rest) = 0 := by
          rw [List.countP_eq_zero]
          intro x hx
          have := extractGo_mem_page cfg rest (pidx + 1) _ x hx
          simp only [beq_iff_eq]
          omega
        rw [hzero]
        simpa using hhere pidx
      · have hzero : List.countP (fun x => x.1 == p)
            ((pagePick cfg total pg).map (fun b => (pidx, b))) = 0 := by
          rw [List.countP_eq_zero]
          intro x hx
          obtain ⟨b, -, rfl⟩ := List.mem_map.mp hx
          simp only [beq_iff_eq]
          omega
        rw [hzero]
        simpa using ih (pidx + 1) (total + (pagePick cfg total pg).length) p

/-- Per-page bound for the vector-region page loop. -/
theorem detectGo_countP (cfg : Config) (h4 : 0 ≤ cfg.max_vector_regions_per_page) :
    ∀ (pages : List Page) (pidx total : Nat) (p : Nat),
      List.countP (fun x => x.1 == p) (detectGo cfg pidx total pages) ≤
        cfg.max_vector_regions_per_page.toNat := by
  intro pages
  induction pages with
  | nil => intro pidx total p; simp [detectGo]
  | cons pg rest ih =>
    intro pidx total p
    have hpick : (vecPick cfg total pg).length ≤ cfg.max_vector_regions_per_page.toNat := by
      rw [vecPick, vecCapLoop_take]
      simp only [List.length_take]
      omega
    have hhere : ∀ (pidx : Nat),
        List.countP (fun x => x.1 == p) ((vecPick cfg total pg).map (fun R => (pidx, R))) ≤
          cfg.max_vector_regions_per_page.toNat := by
      intro pidx
      exact le_trans (by simpa using List.countP_le_length _) (by simpa using hpick)
    rw [detectGo]
    by_cases he : (pageRects cfg pg).isEmpty
    · rw [if_pos he]
      exact ih (pidx + 1) total p
    · rw [if_neg he]
      by_cases h : cfg.max_vector_regions_total ≤
          ((total + (vecPick cfg total pg).length : Nat) : Int)
      · rw [if_pos h]
        exact hhere pidx
      · rw [if_neg h]
        rw [List.countP_append]
        by_cases hp : p = pidx
        · have hzero : List.countP (fun x => x.1 == p)
              (detectGo cfg (pidx + 1) (total + (vecPick cfg total pg).length) rest) = 0 := by
            rw [List.countP_eq_zero]
            intro x hx
            have := detectGo_mem_page cfg rest (pidx + 1) _ x hx
            simp only [beq_iff_eq]
            omega
          rw [hzero]
          simpa using hhere pidx
        · have hzero : List.countP (fun x => x.1 == p)
              ((vecPick cfg total pg).map (fun R => (pidx, R))) = 0 := by
            rw [List.countP_eq_zero]
            intro x hx
            obtain ⟨R, -, rfl⟩ := List.mem_map.mp hx
            simp only [beq_iff_eq]
            omega
          rw [hzero]
          simpa using ih (pidx + 1) (total + (vecPick cfg total pg).length) p

/-- C3 counterexample: the caps are plain `int(...)` values, so a negative
    override such as `MAX_TOTAL_IMAGES=-1` is a legal configuration; on any
    document the selection is then empty, and `0 ≤ -1` is false — the
    stated invariant `|results| ≤ max_total_images` fails. -/
theorem C3_counterexample :
    extract_embedded_images ⟨2, -1, 20000, 2, 12, 5000, 6⟩ [] = [] ∧
    ¬ (((extract_embedded_images ⟨2, -1, 20000, 2, 12, 5000, 6⟩ []).length : Int) ≤ -1) := by
  exact ⟨rfl, by decide⟩

/-- C3 (amended): for every document and every configuration WITH
    NONNEGATIVE CAPS, the embedded-image results number at most
    `max_total_images` overall and at most `max_images_per_page` per page;
    the vector regions number at most `max_vector_regions_total` overall
    and at most `max_vector_regions_per_page` per page; and the inner
    keep-loop of the vector detector truncates each page at the remaining
    global budget, i.e. processing stops entirely once the global cap is
    hit, even mid-page. -/
theorem C3_cap_invariants (cfg : Config) (doc : List Page)
    (h1 : 0 ≤ cfg.max_total_images) (h2 : 0 ≤ cfg.max_images_per_page)
    (h3 : 0 ≤ cfg.max_vector_regions_total) (h4 : 0 ≤ cfg.max_vector_regions_per_page) :
    ((extract_embedded_images cfg doc).length : Int) ≤ cfg.max_total_images ∧
    (∀ p : Nat, (List.countP (fun x => x.1 == p) (extract_embedded_images cfg doc) : Int) ≤
      cfg.max_images_per_page) ∧
    ((detect_vector_regions cfg doc).length : Int) ≤ cfg.max_vector_regions_total ∧
    (∀ p : Nat, (List.countP (fun x => x.1 == p) (detect_vector_regions cfg doc) : Int) ≤
      cfg.max_vector_regions_per_page) ∧
    (∀ (kept total : Nat) (merged : List Rect),
      vecCapLoop cfg.max_vector_regions_per_page cfg.max_vector_regions_total
          kept total merged =
        merged.take (min (cfg.max_vector_regions_per_page - kept).toNat
          (cfg.max_vector_regions_total - total).toNat)) := by
  refine ⟨?_, ?_, ?_, ?_, fun kept total merged => vecCapLoop_take _ _ kept total merged⟩
  · have h := extractGo_length cfg doc 0 0
    rw [extract_embedded_images]
    omega
  · intro p
    have h := extractGo_countP cfg h2 doc 0 0 p
    rw [extract_embedded_images]
    omega
  · have h := detectGo_length cfg doc 0 0
    rw [detect_vector_regions]
    omega
  · intro p
    have h := detectGo_countP cfg h4 doc 0 0 p
    rw [detect_vector_regions]
    omega

/-- Witness for `C3_cap_invariants`: the default configuration on a
    one-page document with a single qualifying 200×200 image. -/
theorem C3_witness :
    ((extract_embedded_images ⟨2, 20, 20000, 2, 12, 5000, 6⟩
      [⟨[⟨7, some ⟨200, 200, "png", []⟩⟩], []⟩]).length : Int) ≤ 20 ∧
    (List.countP (fun x => x.1 == 0) (extract_embedded_images ⟨2, 20, 20000, 2, 12, 5000, 6⟩
      [⟨[⟨7, some ⟨200, 200, "png", []⟩⟩], []⟩]) : Int) ≤ 2 := by
  have h := C3_cap_invariants ⟨2, 20, 20000, 2, 12, 5000, 6⟩
    [⟨[⟨7, some ⟨200, 200, "png", []⟩⟩], []⟩]
    (by decide) (by decide) (by decide) (by decide)
  exact ⟨h.1, h.2.1 0⟩

/-! ### C4: result ordering -/

theorem insertDesc_mem {α β : Type} [LinearOrder β] (key : α → β) (x a : α) :
    ∀ l, a ∈ insertDesc key x l ↔ a = x ∨ a ∈ l := by
  intro l
  induction l with
  | nil => simp [insertDesc]
  | cons y ys ih =>
    rw [insertDesc]
    by_cases h : key x < key y
    · rw [if_pos h]
      simp only [List.mem_cons, ih]
      tauto
    · rw [if_neg h]
      simp [List.mem_cons]

theorem insertDesc_pairwise {α β : Type} [LinearOrder β] (key : α → β) (x : α) :
    ∀ l, List.Pairwise (fun a b => key b ≤ key a) l →
      List.Pairwise (fun a b => key b ≤ key a) (insertDesc key x l) := by
  intro l
  induction l with
  | nil => intro _; simp [insertDesc]
  | cons y ys ih =>
    intro hp
    obtain ⟨hy, hys⟩ := List.pairwise_cons.mp hp
    rw [insertDesc]
    by_cases h : key x < key y
    · rw [if_pos h]
      rw [List.pairwise_cons]
      refine ⟨?_, ih hys⟩
      intro a ha
      rcases (insertDesc_mem key x a ys).mp ha with rfl | ha
      · exact le_of_lt h
      · exact hy a ha
    · rw [if_neg h]
      rw [List.pairwise_cons]
      refine ⟨?_, hp⟩
      intro a ha
      rcases List.mem_cons.mp ha with rfl | ha
      · exact not_lt.mp h
      · exact le_trans (hy a ha) (not_lt.mp h)

theorem sortDesc_pairwise {α β : Type} [LinearOrder β] (key : α → β) :
    ∀ l, List.Pairwise (fun a b => key b ≤ key a) (sortDesc key l) := by
  intro l
  induction l with
  | nil => simp [sortDesc]
  | cons x xs ih => exact insertDesc_pairwise key x (sortDesc key xs) ih

theorem pySlice_sublist {α : Type} (k : Int) (l : List α) :
    (pySlice k l).Sublist l := by
  rw [pySlice]
  split <;> exact List.take_sublist _ _

/-- The rectangles a page contributes are area-descending. -/
theorem pagePick_pairwise (cfg : Config) (total : Nat) (pg : Page) :
    List.Pairwise (fun a b => imgArea b ≤ imgArea a) (pagePick cfg total pg) := by
  have hsorted := sortDesc_pairwise imgArea (pageCandidates cfg pg)
  have hsub : (pagePick cfg total pg).Sublist
      (sortDesc imgArea (pageCandidates cfg pg)) := by
    rw [pagePick, capLoop_take]
    exact (List.take_sublist _ _).trans (pySlice_sublist _ _)
  exact List.Pairwise.sublist hsub hsorted

/-- C4 counterexample: a page whose resource table lists a small image
    before a large one (both above the area threshold).  The code sorts by
    area descending, so the large image comes first in the results — not
    the claimed discovery order (`pageCandidates` preserves discovery
    order, shown alongside). -/
theorem C4_counterexample :
    extract_embedded_images ⟨2, 20, 0, 2, 12, 5000, 6⟩
        [⟨[⟨1, some ⟨10, 10, "png", []⟩⟩, ⟨2, some ⟨20, 20, "png", []⟩⟩], []⟩] =
      [(0, ⟨20, 20, "png", []⟩), (0, ⟨10, 10, "png", []⟩)] ∧
    pageCandidates ⟨2, 20, 0, 2, 12, 5000, 6⟩
        ⟨[⟨1, some ⟨10, 10, "png", []⟩⟩, ⟨2, some ⟨20, 20, "png", []⟩⟩], []⟩ =
      [⟨10, 10, "png", []⟩, ⟨20, 20, "png", []⟩] ∧
    (⟨20, 20, "png", []⟩ : BaseImage) ≠ ⟨10, 10, "png", []⟩ := by
  refine ⟨?_, ?_, by decide⟩ <;> rfl

/-- C4 (amended): the embedded-image result list is ordered by page index
    ascending; WITHIN a page the results appear in candidate-area
    DESCENDING order (the ranking order, not discovery order; the stable
    sort keeps equal-area candidates in discovery order). -/
theorem C4_output_ordering (cfg : Config) (doc : List Page) :
    List.Pairwise (fun a b => a.1 < b.1 ∨ (a.1 = b.1 ∧ imgArea b.2 ≤ imgArea a.2))
      (extract_embedded_images cfg doc) := by
  rw [extract_embedded_images]
  suffices h : ∀ (pages : List Page) (pidx total : Nat),
      List.Pairwise (fun a b => a.1 < b.1 ∨ (a.1 = b.1 ∧ imgArea b.2 ≤ imgArea a.2))
        (extractGo cfg pidx total pages) from h doc 0 0
  intro pages
  induction pages with
  | nil => intro pidx total; simp [extractGo]
  | cons pg rest ih =>
    intro pidx total
    have hhere : ∀ (pidx : Nat), List.Pairwise
        (fun a b => a.1 < b.1 ∨ (a.1 = b.1 ∧ imgArea b.2 ≤ imgArea a.2))
        ((pagePick cfg total pg).map (fun b => (pidx, b))) := by
      intro pidx
      rw [List.pairwise_map]
      exact (pagePick_pairwise cfg total pg).imp (fun {a b} hab => Or.inr ⟨rfl, hab⟩)
    rw [extractGo]
    by_cases h : cfg.max_total_images ≤ ((total + (pagePick cfg total pg).length : Nat) : Int)
    · rw [if_pos h]
      exact hhere pidx
    · rw [if_neg h]
      rw [List.pairwise_append]
      refine ⟨hhere pidx, ih (pidx + 1) _, ?_⟩
      intro a ha b hb
      obtain ⟨ba, -, rfl⟩ := List.mem_map.mp ha
      have := extractGo_mem_page cfg rest (pidx + 1) _ b hb
      exact Or.inl (by omega)

/-! ### C7: area filters -/

theorem sortDesc_mem {α β : Type} [LinearOrder β] (key : α → β) (a : α) :
    ∀ l, a ∈ sortDesc key l ↔ a ∈ l := by
  intro l
  induction l with
  | nil => simp [sortDesc]
  | cons x xs ih =>
    rw [sortDesc, insertDesc_mem, ih]
    simp [List.mem_cons]

/-- The pre-padding drawing rectangles a page contributes (after the area
    filter, before `_expand_rect`). -/
def preRects (cfg : Config) (pg : Page) : List Rect :=
  (pg.drawings.filterMap id).filter (fun r => cfg.min_vector_area_pt ≤ r.get_area)

theorem pageRects_eq (cfg : Config) (pg : Page) :
    pageRects cfg pg = (preRects cfg pg).map (fun r => _expand_rect r cfg.region_pad_pt) := rfl

/-- Membership in the deduplicated reference list is membership in the
    page's resource table. -/
theorem dedupXrefs_mem : ∀ (seen : List Nat) (l : List ImgRef) (i : ImgRef),
    i ∈ dedupXrefs seen l → i ∈ l := by
  intro seen l
  induction l generalizing seen with
  | nil => intro i hi; simp [dedupXrefs] at hi
  | cons j rest ih =>
    intro i hi
    rw [dedupXrefs] at hi
    by_cases h : j.xref ∈ seen
    · rw [if_pos h] at hi
      exact List.mem_cons_of_mem j (ih seen i hi)
    · rw [if_neg h] at hi
      rcases List.mem_cons.mp hi with rfl | hi
      · exact List.mem_cons_self i rest
      · exact List.mem_cons_of_mem j (ih (j.xref :: seen) i hi)

/-- Every page candidate was extracted successfully and passed the
    `min_image_area` filter. -/
theorem pageCandidates_spec (cfg : Config) (pg : Page) (b : BaseImage)
    (hb : b ∈ pageCandidates cfg pg) :
    (∃ i ∈ pg.images, i.base = some b) ∧ cfg.min_image_area ≤ (imgArea b : Int) := by
  rw [pageCandidates] at hb
  obtain ⟨i, hi, hmatch⟩ := List.mem_filterMap.mp hb
  rcases hbase : i.base with _ | b2
  · rw [hbase] at hmatch
    simp at hmatch
  · rw [hbase] at hmatch
    simp only at hmatch
    by_cases harea : (imgArea b2 : Int) < cfg.min_image_area
    · rw [if_pos harea] at hmatch
      simp at hmatch
    · rw [if_neg harea] at hmatch
      simp only [Option.some.injEq] at hmatch
      subst hmatch
      exact ⟨⟨i, dedupXrefs_mem [] pg.images i hi, hbase⟩, not_lt.mp harea⟩

theorem pagePick_mem (cfg : Config) (total : Nat) (pg : Page) (b : BaseImage)
    (hb : b ∈ pagePick cfg total pg) : b ∈ pageCandidates cfg pg := by
  have hsub : (pagePick cfg total pg).Sublist
      (sortDesc imgArea (pageCandidates cfg pg)) := by
    rw [pagePick, capLoop_take]
    exact (List.take_sublist _ _).trans (pySlice_sublist _ _)
  exact (sortDesc_mem imgArea b _).mp (hsub.mem hb)

theorem extractGo_mem_cand (cfg : Config) :
    ∀ (pages : List Page) (pidx total : Nat) (p : Nat) (b : BaseImage),
      (p, b) ∈ extractGo cfg pidx total pages →
        ∃ pg ∈ pages, b ∈ pageCandidates cfg pg := by
  intro pages
  induction pages with
  | nil => intro pidx total p b hb; simp [extractGo] at hb
  | cons pg rest ih =>
    intro pidx total p b hb
    rw [extractGo] at hb
    have hhere : (p, b) ∈ (pagePick cfg total pg).map (fun b => (pidx, b)) →
        ∃ pg2 ∈ pg :: rest, b ∈ pageCandidates cfg pg2 := by
      intro hx
      obtain ⟨b2, hb2, heq⟩ := List.mem_map.mp hx
      have hb2b : b2 = b := congrArg Prod.snd heq
      rw [hb2b] at hb2
      exact ⟨pg, by simp, pagePick_mem cfg total pg b hb2⟩
    by_cases h : cfg.max_total_images ≤ ((total + (pagePick cfg total pg).length : Nat) : Int)
    · rw [if_pos h] at hb
      exact hhere hb
    · rw [if_neg h] at hb
      rcases List.mem_append.mp hb with hb | hb
      · exact hhere hb
      · obtain ⟨pg2, hpg2, hcand⟩ := ih (pidx + 1) _ p b hb
        exact ⟨pg2, by simp [hpg2], hcand⟩

theorem vecPick_mem (cfg : Config) (total : Nat) (pg : Page) (R : Rect)
    (hR : R ∈ vecPick cfg total pg) :
    R ∈ _merge_rects (pageRects cfg pg) (15/100) := by
  have hsub : (vecPick cfg total pg).Sublist
      (sortDesc Rect.get_area (_merge_rects (pageRects cfg pg) (15/100))) := by
    rw [vecPick, vecCapLoop_take]
    exact List.take_sublist _ _
  exact (sortDesc_mem Rect.get_area R _).mp (hsub.mem hR)

theorem detectGo_mem_region (cfg : Config) :
    ∀ (pages : List Page) (pidx total : Nat) (p : Nat) (R : Rect),
      (p, R) ∈ detectGo cfg pidx total pages →
        ∃ pg ∈ pages, R ∈ _merge_rects (pageRects cfg pg) (15/100) := by
  intro pages
  induction pages with
  | nil => intro pidx total p R hR; simp [detectGo] at hR
  | cons pg rest ih =>
    intro pidx total p R hR
    rw [detectGo] at hR
    have hhere : (p, R) ∈ (vecPick cfg total pg).map (fun R => (pidx, R)) →
        ∃ pg2 ∈ pg :: rest, R ∈ _merge_rects (pageRects cfg pg2) (15/100) := by
      intro hx
      obtain ⟨R2, hR2, heq⟩ := List.mem_map.mp hx
      have hR2R : R2 = R := congrArg Prod.snd heq
      rw [hR2R] at hR2
      exact ⟨pg, by simp, vecPick_mem cfg total pg R hR2⟩
    by_cases he : (pageRects cfg pg).isEmpty
    · rw [if_pos he] at hR
      obtain ⟨pg2, hpg2, hm⟩ := ih (pidx + 1) total p R hR
      exact ⟨pg2, by simp [hpg2], hm⟩
    · rw [if_neg he] at hR
      by_cases h : cfg.max_vector_regions_total ≤
          ((total + (vecPick cfg total pg).length : Nat) : Int)
      · rw [if_pos h] at hR
        exact hhere hR
      · rw [if_neg h] at hR
        rcases List.mem_append.mp hR with hR | hR
        · exact hhere hR
        · obtain ⟨pg2, hpg2, hm⟩ := ih (pidx + 1) _ p R hR
          exact ⟨pg2, by simp [hpg2], hm⟩

/-- C7: every selected embedded image stems from a candidate with
    `width × height ≥ min_image_area`; every vector region is an output of
    the merger run on the padded versions of rectangles that each had
    pre-padding area ≥ `min_vector_area_pt`. -/
theorem C7_area_filters (cfg : Config) (doc : List Page) :
    (∀ (p : Nat) (b : BaseImage), (p, b) ∈ extract_embedded_images cfg doc →
      cfg.min_image_area ≤ (imgArea b : Int)) ∧
    (∀ (p : Nat) (R : Rect), (p, R) ∈ detect_vector_regions cfg doc →
      ∃ pg ∈ doc, R ∈ _merge_rects
          ((preRects cfg pg).map (fun r => _expand_rect r cfg.region_pad_pt)) (15/100) ∧
        ∀ r ∈ preRects cfg pg, cfg.min_vector_area_pt ≤ r.get_area) := by
  constructor
  · intro p b hb
    rw [extract_embedded_images] at hb
    obtain ⟨pg, -, hcand⟩ := extractGo_mem_cand cfg doc 0 0 p b hb
    exact (pageCandidates_spec cfg pg b hcand).2
  · intro p R hR
    rw [detect_vector_regions] at hR
    obtain ⟨pg, hpg, hm⟩ := detectGo_mem_region cfg doc 0 0 p R hR
    rw [pageRects_eq] at hm
    refine ⟨pg, hpg, hm, ?_⟩
    intro r hr
    have := (List.mem_filter.mp hr).2
    exact of_decide_eq_true this

/-- Witness for `C7_area_filters`: default configuration, one page with a
    200×200 embedded image and one 100×100 drawing. -/
theorem C7_witness :
    ((⟨2, 20, 20000, 2, 12, 5000, 6⟩ : Config).min_image_area ≤
      (imgArea ⟨200, 200, "png", []⟩ : Int)) ∧
    (∃ pg ∈ [(⟨[⟨7, some ⟨200, 200, "png", []⟩⟩], [some ⟨0, 0, 100, 100⟩]⟩ : Page)],
      (⟨-6, -6, 106, 106⟩ : Rect) ∈ _merge_rects
          ((preRects ⟨2, 20, 20000, 2, 12, 5000, 6⟩ pg).map
            (fun r => _expand_rect r (6 : ℚ))) (15/100) ∧
      ∀ r ∈ preRects ⟨2, 20, 20000, 2, 12, 5000, 6⟩ pg,
        (5000 : ℚ) ≤ r.get_area) := by
  constructor
  · exact (C7_area_filters ⟨2, 20, 20000, 2, 12, 5000, 6⟩
      [⟨[⟨7, some ⟨200, 200, "png", []⟩⟩], [some ⟨0, 0, 100, 100⟩]⟩]).1 0
      ⟨200, 200, "png", []⟩ (by with_unfolding_all decide)
  · exact (C7_area_filters ⟨2, 20, 20000, 2, 12, 5000, 6⟩
      [⟨[⟨7, some ⟨200, 200, "png", []⟩⟩], [some ⟨0, 0, 100, 100⟩]⟩]).2 0
      ⟨-6, -6, 106, 106⟩ (by with_unfolding_all decide)

/-! ### C8: error propagation policy -/

theorem render_vector_regions_append (n : Int) (raster : Int → Rect → Option (List Nat)) :
    ∀ l₁ l₂, render_vector_regions n raster (l₁ ++ l₂) =
      render_vector_regions n raster l₁ ++ render_vector_regions n raster l₂ := by
  intro l₁
  induction l₁ with
  | nil => intro l₂; simp [render_vector_regions]
  | cons x rest ih =>
    intro l₂
    obtain ⟨p, rect⟩ := x
    rw [List.cons_append, render_vector_regions, render_vector_regions]
    by_cases h : p < 0 ∨ n ≤ p
    · rw [if_pos h, if_pos h, ih]
    · rw [if_neg h, if_neg h]
      rcases hr : raster p rect with _ | png
      · exact ih l₂
      · rw [List.cons_append, ih]

/-- C8: only an empty or unreadable source aborts (at construction); a
    candidate whose extraction raised never reaches the results; a failed
    resize/re-encode falls back to the original bytes; an out-of-range page
    index or failed rasterization drops that region while the surrounding
    regions are still rendered. -/
theorem C8_error_policy :
    (∀ (pdf_bytes : List Nat) (openResult : Option (List Page)),
      (∃ e, post_init pdf_bytes openResult = Except.error e) ↔
        (pdf_bytes = [] ∨ openResult = none)) ∧
    (∀ (cfg : Config) (doc : List Page) (p : Nat) (b : BaseImage),
      (p, b) ∈ extract_embedded_images cfg doc →
        ∃ pg ∈ doc, ∃ i ∈ pg.images, i.base = some b) ∧
    (∀ (dims : List Nat → Option (Nat × Nat))
        (reenc : List Nat → Nat → Nat → String → Option (List Nat))
        (bytes : List Nat) (ext : String) (md : Int),
      (dims bytes = none → _resize_if_needed dims reenc bytes ext md = (bytes, ext.toLower)) ∧
      (∀ w ht, dims bytes = some (w, ht) → reenc bytes w ht ext = none →
        _resize_if_needed dims reenc bytes ext md = (bytes, ext.toLower))) ∧
    (∀ (n : Int) (raster : Int → Rect → Option (List Nat)) (pre post : List (Int × Rect))
        (p : Int) (rect : Rect),
      (p < 0 ∨ n ≤ p ∨ raster p rect = none) →
        render_vector_regions n raster (pre ++ (p, rect) :: post) =
          render_vector_regions n raster pre ++ render_vector_regions n raster post) := by
  refine ⟨?_, ?_, ?_, ?_⟩
  · intro pdf_bytes openResult
    rw [post_init.eq_def]
    by_cases hb : pdf_bytes.isEmpty = true
    · rw [if_pos hb]
      constructor
      · intro _
        exact Or.inl (List.isEmpty_iff.mp hb)
      · intro _
        exact ⟨"PDF is empty or unreadable", rfl⟩
    · rw [if_neg hb]
      rcases openResult with _ | doc2
      · constructor
        · intro _
          exact Or.inr rfl
        · intro _
          exact ⟨"unreadable", rfl⟩
      · constructor
        · rintro ⟨e, he⟩
          exact Except.noConfusion he
        · rintro (h | h)
          · exact absurd (List.isEmpty_iff.mpr h) hb
          · exact Option.noConfusion h
  · intro cfg doc p b hb
    rw [extract_embedded_images] at hb
    obtain ⟨pg, hpg, hcand⟩ := extractGo_mem_cand cfg doc 0 0 p b hb
    obtain ⟨⟨i, hi, hbase⟩, -⟩ := pageCandidates_spec cfg pg b hcand
    exact ⟨pg, hpg, i, hi, hbase⟩
  · intro dims reenc bytes ext md
    constructor
    · intro h
      rw [_resize_if_needed, h]
    · intro w ht hdims hre
      rw [_resize_if_needed, hdims]
      by_cases hc : md ≠ 0 ∧ md < ((max w ht : Nat) : Int)
      · simp only [if_pos hc, hre]
      · simp only [if_neg hc]
  · intro n raster pre post p rect hbad
    have hskip : render_vector_regions n raster ((p, rect) :: post) =
        render_vector_regions n raster post := by
      rw [render_vector_regions]
      rcases hbad with h | h | h
      · rw [if_pos (Or.inl h)]
      · rw [if_pos (Or.inr h)]
      · by_cases hb : p < 0 ∨ n ≤ p
        · rw [if_pos hb]
        · rw [if_neg hb, h]
    rw [render_vector_regions_append, hskip]

/-- Witness for `C8_error_policy`: an empty byte string errors at
    construction; a selected image stems from a successful extraction; a
    codec that always fails leaves the bytes unchanged; a region with an
    out-of-range page index is dropped. -/
theorem C8_witness :
    (∃ e, post_init [] (some []) = Except.error e) ∧
    (∃ pg ∈ [(⟨[⟨7, some ⟨200, 200, "png", []⟩⟩], []⟩ : Page)],
      ∃ i ∈ pg.images, i.base = some ⟨200, 200, "png", []⟩) ∧
    (_resize_if_needed (fun _ => none) (fun _ _ _ _ => none) [1, 2] "png" 1400 =
      ([1, 2], "png".toLower)) ∧
    (render_vector_regions 1 (fun _ _ => none) ([] ++ ((5 : Int), (⟨0, 0, 1, 1⟩ : Rect)) :: []) =
      render_vector_regions 1 (fun _ _ => none) [] ++
        render_vector_regions 1 (fun _ _ => none) []) := by
  refine ⟨(C8_error_policy.1 [] (some [])).mpr (Or.inl rfl), ?_, ?_, ?_⟩
  · exact C8_error_policy.2.1 ⟨2, 20, 20000, 2, 12, 5000, 6⟩
      [⟨[⟨7, some ⟨200, 200, "png", []⟩⟩], []⟩] 0 ⟨200, 200, "png", []⟩
      (by with_unfolding_all decide)
  · exact (C8_error_policy.2.2.1 (fun _ => none) (fun _ _ _ _ => none) [1, 2] "png" 1400).1 rfl
  · exact C8_error_policy.2.2.2 1 (fun _ _ => none) [] [] 5 ⟨0, 0, 1, 1⟩
      (Or.inr (Or.inl (by decide)))

/-! ### C10: data-URI encode/decode roundtrip

`base64.b64encode`/`b64decode` (standard alphabet, `=` padding) are
modelled on byte strings; `_to_data_uri` builds
`data:<mime>;base64,<payload>` choosing the mime from the lowercased
extension, re-encoding via the PIL codec (`pilPng`, an opaque parameter)
for unrecognized extensions; `debug.decode_data_uri` parses that shape
back (the regex `^data:([^;]+);base64,(.*)$` takes the mime up to the
first `;`, then requires the literal `;base64,`). -/

/-- The standard base64 alphabet. -/
def b64Alphabet : List Char :=
  "ABCDEFGHIJKLMNOPQRSTUVWXYZabcdefghijklmnopqrstuvwxyz0123456789+/".toList

/-- Map a 6-bit value to its alphabet character. -/
def encChar (n : Nat) : Char := b64Alphabet.getD n 'A'

/-- Alphabet character → 6-bit value (`none` off the alphabet). -/
def decChar (c : Char) : Option Nat := b64Alphabet.findIdx? (fun d => d = c)

/-- Embedding of `base64.b64encode`: 3-byte groups become 4 characters, `=`-padded tail. -/
def b64encode : List Nat → List Char
  | [] => []
  | [b1] => [encChar (b1 / 4), encChar (b1 % 4 * 16), '=', '=']
  | [b1, b2] => [encChar (b1 / 4), encChar (b1 % 4 * 16 + b2 / 16), encChar (b2 % 16 * 4), '=']
  | b1 :: b2 :: b3 :: rest =>
    encChar (b1 / 4) :: encChar (b1 % 4 * 16 + b2 / 16) ::
      encChar (b2 % 16 * 4 + b3 / 64) :: encChar (b3 % 64) :: b64encode rest

/-- Embedding of `base64.b64decode` on well-formed base64 text (4-character groups,
    padding only in the final group). -/
def b64decode : List Char → Option (List Nat)
  | [] => some []
  | c1 :: c2 :: c3 :: c4 :: rest =>
    (decChar c1).bind (fun d1 =>
      (decChar c2).bind (fun d2 =>
        if c3 = '=' ∧ c4 = '=' ∧ rest = [] then some [d1 * 4 + d2 / 16]
        else
          (decChar c3).bind (fun d3 =>
            if c4 = '=' ∧ rest = [] then
              some [d1 * 4 + d2 / 16, d2 % 16 * 16 + d3 / 4]
            else
              (decChar c4).bind (fun d4 =>
                (b64decode rest).bind (fun tail =>
                  some ((d1 * 4 + d2 / 16) :: (d2 % 16 * 16 + d3 / 4) ::
                    (d3 % 4 * 64 + d4) :: tail))))))
  | _ => none

theorem decChar_encChar : ∀ n < 64, decChar (encChar n) = some n := by decide

theorem encChar_ne_pad : ∀ n < 64, ¬ encChar n = '=' := by decide

/-- Decoding inverts encoding on byte strings. -/
theorem b64_roundtrip : ∀ bs : List Nat, (∀ b ∈ bs, b < 256) →
    b64decode (b64encode bs) = some bs
  | [] , _ => rfl
  | [b1], h => by
    have h1 : b1 < 256 := h b1 (by simp)
    rw [b64encode, b64decode]
    rw [decChar_encChar (b1 / 4) (by omega), decChar_encChar (b1 % 4 * 16) (by omega)]
    simp only [Option.some_bind]
    rw [if_pos (by simp)]
    simp only [Option.some.injEq, List.cons.injEq, and_true]
    omega
  | [b1, b2], h => by
    have h1 : b1 < 256 := h b1 (by simp)
    have h2 : b2 < 256 := h b2 (by simp)
    rw [b64encode, b64decode]
    rw [decChar_encChar (b1 / 4) (by omega),
      decChar_encChar (b1 % 4 * 16 + b2 / 16) (by omega)]
    simp only [Option.some_bind]
    rw [if_neg (fun hc => encChar_ne_pad (b2 % 16 * 4) (by omega) hc.1)]
    rw [decChar_encChar (b2 % 16 * 4) (by omega)]
    simp only [Option.some_bind]
    rw [if_pos (by simp)]
    simp only [Option.some.injEq, List.cons.injEq, and_true]
    exact ⟨by omega, by omega⟩
  | b1 :: b2 :: b3 :: rest, h => by
    have h1 : b1 < 256 := h b1 (by simp)
    have h2 : b2 < 256 := h b2 (by simp)
    have h3 : b3 < 256 := h b3 (by simp)
    have hrec := b64_roundtrip rest (fun b hb => h b (by simp [hb]))
    rw [b64encode, b64decode]
    rw [decChar_encChar (b1 / 4) (by omega),
      decChar_encChar (b1 % 4 * 16 + b2 / 16) (by omega)]
    simp only [Option.some_bind]
    rw [if_neg (fun hc => encChar_ne_pad (b2 % 16 * 4 + b3 / 64) (by omega) hc.1)]
    rw [decChar_encChar (b2 % 16 * 4 + b3 / 64) (by omega)]
    simp only [Option.some_bind]
    rw [if_neg (fun hc => encChar_ne_pad (b3 % 64) (by omega) hc.1)]
    rw [decChar_encChar (b3 % 64) (by omega), hrec]
    simp only [Option.some_bind, Option.some.injEq, List.cons.injEq, and_true]
    refine ⟨by omega, by omega, by omega⟩

/-- Embedding of `_to_data_uri(image_bytes, ext)`: `pilPng` is the PIL re-encode used
    for unrecognized extensions. -/
def _to_data_uri (pilPng : List Nat → List Nat) (image_bytes : List Nat) (ext : String) :
    String :=
  if ext.toLower = "jpg" ∨ ext.toLower = "jpeg" then
    String.mk ("data:".toList ++ ("image/jpeg".toList ++ (";base64,".toList ++
      b64encode image_bytes)))
  else if ext.toLower = "png" then
    String.mk ("data:".toList ++ ("image/png".toList ++ (";base64,".toList ++
      b64encode image_bytes)))
  else
    String.mk ("data:".toList ++ ("image/png".toList ++ (";base64,".toList ++
      b64encode (pilPng image_bytes))))

/-- The `mime.lower().strip()` → extension chain of `decode_data_uri`:
    `image/png` → `png`, `image/jpeg`/`image/jpg` → `jpg`, anything else
    defaults to `png`. -/
def mimeExt (mime : List Char) : String :=
  if (String.mk mime).toLower.trim = "image/png" then "png"
  else if (String.mk mime).toLower.trim = "image/jpeg" ∨
      (String.mk mime).toLower.trim = "image/jpg" then "jpg"
  else "png"

/-- Embedding of `debug.decode_data_uri`: parse `data:<mime>;base64,<payload>` (the
    regex takes the mime greedily up to the first `;`, then requires the
    literal `;base64,`), base64-decode the payload, and normalize the mime
    to an extension. -/
def decode_data_uri (s : String) : Option (List Nat × String) :=
  if s.toList.take 5 = "data:".toList then
    if ((s.toList.drop 5).takeWhile (fun c => ¬ c = ';')).isEmpty then none
    else
      if ((s.toList.drop 5).drop
          ((s.toList.drop 5).takeWhile (fun c => ¬ c = ';')).length).take 8 =
          ";base64,".toList then
        match b64decode (((s.toList.drop 5).drop
            ((s.toList.drop 5).takeWhile (fun c => ¬ c = ';')).length).drop 8) with
        | none => none
        | some blob =>
          some (blob, mimeExt ((s.toList.drop 5).takeWhile (fun c => ¬ c = ';')))
      else none
  else none

theorem takeWhile_append_head_false {α : Type} (p : α → Bool) :
    ∀ (l₁ : List α) (x : α) (l₂ : List α), (∀ c ∈ l₁, p c = true) → p x = false →
      (l₁ ++ x :: l₂).takeWhile p = l₁ := by
  intro l₁
  induction l₁ with
  | nil =>
    intro x l₂ _ hx
    simp [List.takeWhile, hx]
  | cons c cs ih =>
    intro x l₂ h1 hx
    rw [List.cons_append, List.takeWhile]
    rw [h1 c (by simp)]
    rw [ih x l₂ (fun d hd => h1 d (by simp [hd])) hx]

/-- Parsing a well-formed `data:` URI recovers the payload and the mime's
    extension. -/
theorem take_len_append {α : Type} (l₁ l₂ : List α) (n : Nat) (h : l₁.length = n) :
    (l₁ ++ l₂).take n = l₁ := by
  subst h
  exact List.take_left _ _

theorem drop_len_append {α : Type} (l₁ l₂ : List α) (n : Nat) (h : l₁.length = n) :
    (l₁ ++ l₂).drop n = l₂ := by
  subst h
  exact List.drop_left _ _

theorem decode_data_uri_eq (mime payload : List Char) (hne : mime ≠ [])
    (hsemi : ∀ c ∈ mime, ¬ c = ';') :
    decode_data_uri
        (String.mk ("data:".toList ++ (mime ++ (";base64,".toList ++ payload)))) =
      (match b64decode payload with
      | none => none
      | some blob => some (blob, mimeExt mime)) := by
  have e : (String.mk ("data:".toList ++ (mime ++ (";base64,".toList ++ payload)))).toList =
      "data:".toList ++ (mime ++ (";base64,".toList ++ payload)) := rfl
  have h1 : ("data:".toList ++ (mime ++ (";base64,".toList ++ payload))).take 5 =
      "data:".toList := take_len_append _ _ 5 rfl
  have h2 : ("data:".toList ++ (mime ++ (";base64,".toList ++ payload))).drop 5 =
      mime ++ (";base64,".toList ++ payload) := drop_len_append _ _ 5 rfl
  have h3 : (mime ++ (";base64,".toList ++ payload)).takeWhile (fun c => ¬ c = ';') =
      mime := by
    have hv : mime ++ (";base64,".toList ++ payload) =
        mime ++ ';' :: ("base64,".toList ++ payload) := rfl
    rw [hv]
    exact takeWhile_append_head_false _ mime ';' ("base64,".toList ++ payload)
      (fun c hc => decide_eq_true (hsemi c hc)) (by decide)
  have h4 : (mime ++ (";base64,".toList ++ payload)).drop mime.length =
      ";base64,".toList ++ payload := List.drop_left _ _
  have h5 : (";base64,".toList ++ payload).take 8 = ";base64,".toList :=
    take_len_append _ _ 8 rfl
  have h6 : (";base64,".toList ++ payload).drop 8 = payload := drop_len_append _ _ 8 rfl
  rw [decode_data_uri, e, h2, h3, h4, h5, h6]
  rw [if_pos h1]
  rw [if_neg (by simp [hne])]
  rw [if_pos rfl]

/-- C10: encoding then decoding a data URI is the identity on the payload:
    for extensions normalizing to jpg/jpeg the bytes come back with
    extension "jpg", for png with "png"; for any other extension the
    decoded extension is "png" and the payload is the PIL re-encoded
    bytes. -/
theorem C10_data_uri_roundtrip (pilPng : List Nat → List Nat) (b : List Nat) (ext : String)
    (hb : ∀ x ∈ b, x < 256) :
    ((ext.toLower = "jpg" ∨ ext.toLower = "jpeg") →
      decode_data_uri (_to_data_uri pilPng b ext) = some (b, "jpg")) ∧
    (¬ (ext.toLower = "jpg" ∨ ext.toLower = "jpeg") → ext.toLower = "png" →
      decode_data_uri (_to_data_uri pilPng b ext) = some (b, "png")) ∧
    (¬ (ext.toLower = "jpg" ∨ ext.toLower = "jpeg") → ¬ ext.toLower = "png" →
      (∀ x ∈ pilPng b, x < 256) →
      decode_data_uri (_to_data_uri pilPng b ext) = some (pilPng b, "png")) := by
  have hjext : mimeExt "image/jpeg".toList = "jpg" := by with_unfolding_all decide
  have hpext : mimeExt "image/png".toList = "png" := by with_unfolding_all decide
  refine ⟨?_, ?_, ?_⟩
  · intro hjpg
    rw [_to_data_uri, if_pos hjpg,
      decode_data_uri_eq "image/jpeg".toList (b64encode b) (by decide) (by decide),
      b64_roundtrip b hb, hjext]
  · intro hnj hpng
    rw [_to_data_uri, if_neg hnj, if_pos hpng,
      decode_data_uri_eq "image/png".toList (b64encode b) (by decide) (by decide),
      b64_roundtrip b hb, hpext]
  · intro hnj hnp hpil
    rw [_to_data_uri, if_neg hnj, if_neg hnp,
      decode_data_uri_eq "image/png".toList (b64encode (pilPng b)) (by decide) (by decide),
      b64_roundtrip (pilPng b) hpil, hpext]

/-- Witness for `C10_data_uri_roundtrip`: two PNG bytes survive the
    round trip. -/
theorem C10_witness :
    decode_data_uri (_to_data_uri id [137, 80] "png") = some ([137, 80], "png") :=
  (C10_data_uri_roundtrip id [137, 80] "png" (by decide)).2.1
    (by with_unfolding_all decide) (by with_unfolding_all decide)

